import Mathlib

/-!
Verification development for the outreach_engine repository.

Shallow embedding of:
  - src/app/utils/sanitizer.py      (PII scrubbing and storage sanitisation)
  - src/app/api/state_manager.py     (campaign registry and event bus)
  - src/app/api/workflow_runner.py   (workflow driver over graph.astream events)
  - src/main.py, run_approval_loop   (approval / regeneration controller)

Text is modelled as List Char.  Python character classes are modelled at
their ASCII meaning.  The external stage workers (app/agents/*) are not in
the repository snapshot; they enter the model only as opaque function
parameters, which is all the claims about the controller need.
-/

/-! ## Character classes of sanitizer.py's regexes

`_PHONE_RE  = (\+?\d[\d\s\-\(\)]{7,}\d)`
`_EMAIL_RE  = [\w.\-+]+@[\w.\-]+\.\w{2,}`
-/

def isDigitC (c : Char) : Bool := c.isDigit

/-- Python `\s` over ASCII: space, tab, newline, return, vertical tab, form feed. -/
def isSpaceC (c : Char) : Bool :=
  c = ' ' || c = '\t' || c = '\n' || c = '\x0d' || c = '\x0b' || c = '\x0c'

/-- Python `\w` over ASCII: letters, digits, underscore. -/
def isWordC (c : Char) : Bool := c.isAlphanum || c = '_'

/-- The inner class of the phone regex: `[\d\s\-\(\)]`. -/
def isPhoneMid (c : Char) : Bool :=
  isDigitC c || isSpaceC c || c = '-' || c = '(' || c = ')'

/-- The local-part class of the email regex: `[\w.\-+]`. -/
def isLocalC (c : Char) : Bool := isWordC c || c = '.' || c = '-' || c = '+'

/-- The domain class of the email regex: `[\w.\-]`. -/
def isDomainC (c : Char) : Bool := isWordC c || c = '.' || c = '-'

/-- Every character that can occur in a phone-regex match. -/
def isPhoneAl (c : Char) : Bool := isPhoneMid c || c = '+'

/-- Every character that can occur in an email-regex match. -/
def isEmailAl (c : Char) : Bool := isLocalC c || c = '@'

/-! ## The regex matchers (leftmost, greedy, as Python's engine resolves them)

`phoneLen t` / `emailLen t` return the length of the match the Python engine
finds anchored at the head of `t`, or none.  For the phone pattern the engine
takes the longest run of class characters after the leading digit and
backtracks the `{7,}` until the next character is a digit; for the email
pattern the local part must be the maximal `[\w.\-+]` run (as `@` is not in
the class, no shorter split can succeed), and the domain backtracks `[\w.\-]+`
from the longest run to the last `.` that is followed by at least two word
characters, the trailing `\w{2,}` being greedy.
-/

def phoneLenCore (t : List Char) : Option Nat :=
  match t with
  | [] => none
  | c :: rest =>
    if isDigitC c then
      let r := rest.takeWhile isPhoneMid
      match ((List.range r.length).filter
          (fun k => decide (7 ≤ k) && isDigitC (r.getD k 'x'))).max? with
      | some k => some (k + 2)
      | none => none
    else none

def phoneLen (t : List Char) : Option Nat :=
  match t with
  | [] => none
  | c :: rest =>
    if c = '+' then (phoneLenCore rest).map (· + 1)
    else phoneLenCore (c :: rest)

def emailDomainLen (rest : List Char) : Option Nat :=
  let d := rest.takeWhile isDomainC
  match ((List.range d.length).filter
      (fun j => decide (1 ≤ j) && decide (d.getD j 'x' = '.') &&
        decide (2 ≤ ((rest.drop (j+1)).takeWhile isWordC).length))).max? with
  | some j => some (j + 1 + ((rest.drop (j+1)).takeWhile isWordC).length)
  | none => none

def emailLen (t : List Char) : Option Nat :=
  let a := (t.takeWhile isLocalC).length
  if a = 0 then none
  else if t.getD a 'x' = '@' then
    (emailDomainLen (t.drop (a + 1))).map (fun dl => a + 1 + dl)
  else none

/-! ## `re.sub`: leftmost non-overlapping substitution

`subTextF` walks the text; at each position it asks the matcher for a match
anchored there; on failure it keeps the character and moves one right, on a
match of length n+1 it emits the replacement and resumes after the match
(both regexes only produce non-empty matches, so the `some 0` case is dead
and folded into the no-match branch).  The fuel argument makes the recursion
structural; `subText` supplies fuel = length, which every run stays within. -/

def subTextF (M : List Char → Option Nat) (repl : List Char) :
    Nat → List Char → List Char
  | _, [] => []
  | 0, t => t
  | f+1, c :: rest =>
    match M (c :: rest) with
    | some (n+1) => repl ++ subTextF M repl f (rest.drop n)
    | _ => c :: subTextF M repl f rest

def subText (M : List Char → Option Nat) (repl : List Char) (t : List Char) :
    List Char :=
  subTextF M repl t.length t

def phoneRepl : List Char := "[REDACTED-PHONE]".toList

def emailRepl : List Char := "[REDACTED-EMAIL]".toList

/-- `_scrub_text`: phone substitution first, then email substitution. -/
def scrub_text (t : List Char) : List Char :=
  subText emailLen emailRepl (subText phoneLen phoneRepl t)

/-! ## Declarative reading of the two regexes -/

/-- `l` matches `\+?\d[\d\s\-\(\)]{7,}\d` exactly. -/
def phoneMatch (l : List Char) : Prop :=
  ∃ d mid e, (l = d :: mid ++ [e] ∨ l = '+' :: d :: mid ++ [e]) ∧
    isDigitC d = true ∧ 7 ≤ mid.length ∧ mid.all isPhoneMid = true ∧
    isDigitC e = true

/-- `l` matches `[\w.\-+]+@[\w.\-]+\.\w{2,}` exactly. -/
def emailMatch (l : List Char) : Prop :=
  ∃ loc dom tld, l = loc ++ '@' :: (dom ++ '.' :: tld) ∧
    loc ≠ [] ∧ loc.all isLocalC = true ∧
    dom ≠ [] ∧ dom.all isDomainC = true ∧
    2 ≤ tld.length ∧ tld.all isWordC = true

/-- `sub` occurs contiguously inside `u`. -/
def SubstrOf (u sub : List Char) : Prop :=
  ∃ i l, sub = (u.drop i).take l

/-- No contiguous part of `u` satisfies `P`. -/
def NoMatchIn (P : List Char → Prop) (u : List Char) : Prop :=
  ∀ i l, ¬ P ((u.drop i).take l)

/-! ## sanitize_for_storage (src/app/utils/sanitizer.py)

The raw pipeline dict is modelled by `SanPayload`: one optional field per key
the sanitiser honours (a Python key that is absent or falsy is `none` /
empty), every other key is dropped by the source unseen, so it needs no
representation.  Link values may be non-strings (`LinkVal.other`), which the
source filters out with `isinstance(v, str)`.  The output dict is modelled as
an association list in the order the source inserts keys. -/

inductive LinkVal
  | str (s : String)
  | other
deriving DecidableEq

structure InDraft where
  channel : Option String
  subject : Option (List Char)
  body : Option (List Char)
  score : Option Int
  approved : Option Bool
  sent : Option Bool
deriving DecidableEq

structure SanPayload where
  company : Option (List Char)
  role : Option (List Char)
  industry : Option (List Char)
  links : Option (List (String × LinkVal))
  tone_json : Option (List (String × String))
  interests : Option (List (List Char))
  recent_activity : Option (List Char)
  communication_style : Option (List Char)
  drafts : Option (List InDraft)

structure OutDraft where
  channel : String
  subject : Option (List Char)
  body : List Char
  score : Option Int
  approved : Bool
  sent : Bool
deriving DecidableEq

inductive SafeVal
  | text (s : List Char)
  | linkMap (l : List (String × String))
  | tone (t : List (String × String))
  | strs (l : List (List Char))
  | draftList (l : List OutDraft)
deriving DecidableEq

/-- Python truthiness of an optional string/list field. -/
def truthy {α : Type} (o : Option (List α)) : Bool :=
  match o with
  | some (_ :: _) => true
  | _ => false

def allowed_link_keys : List String :=
  ["linkedin", "company_site", "twitter", "github", "portfolio", "blog", "website"]

def sanitizeLinks (raw : List (String × LinkVal)) : List (String × String) :=
  raw.filterMap (fun p =>
    match p.2 with
    | LinkVal.str v =>
      if allowed_link_keys.contains p.1.toLower then some (p.1, v) else none
    | LinkVal.other => none)

def sanitizeDraft (d : InDraft) : OutDraft :=
  { channel := d.channel.getD "unknown"
    subject := if truthy d.subject then (d.subject.map scrub_text) else none
    body := scrub_text (d.body.getD [])
    score := d.score
    approved := d.approved.getD false
    sent := d.sent.getD false }

def sanitize_for_storage (p : SanPayload) : List (String × SafeVal) :=
  (if truthy p.company then [("company", SafeVal.text (scrub_text (p.company.getD [])))] else []) ++
  (if truthy p.role then [("role", SafeVal.text (scrub_text (p.role.getD [])))] else []) ++
  (if truthy p.industry then [("industry", SafeVal.text (scrub_text (p.industry.getD [])))] else []) ++
  [("links", SafeVal.linkMap (sanitizeLinks (p.links.getD [])))] ++
  (match p.tone_json with
    | some (t :: ts) => [("tone_json", SafeVal.tone (t :: ts))]
    | _ => []) ++
  (if truthy p.interests then [("interests", SafeVal.strs (p.interests.getD []))] else []) ++
  (if truthy p.recent_activity then
    [("recent_activity", SafeVal.text (scrub_text (p.recent_activity.getD [])))] else []) ++
  (if truthy p.communication_style then
    [("communication_style", SafeVal.text (scrub_text (p.communication_style.getD [])))] else []) ++
  [("drafts", SafeVal.draftList ((p.drafts.getD []).map sanitizeDraft))]

/-! ## The approval / regeneration controller (src/main.py, run_approval_loop)

The scoring worker and `_generate_draft` live in app/agents (external
collaborators, not part of this snapshot); they are opaque parameters.  The
human decision of each round is modelled already parsed into the approved and
regen channel lists (lines 167-177 of main.py).  `runLoop` consumes one
decision per iteration of the source's `while True`; an empty decision list
models the operator never answering, `finished = false`.  `obs` records the
state right after each round's decision is applied (line 183), the loop's
observable points. -/

structure DraftR where
  channel : String
  subject : Option String
  body : String
  score : Option Int
  approved : Bool
  sent : Bool
deriving DecidableEq

structure PState where
  status : Option String
  drafts : List DraftR
  approved_channels : List String
deriving DecidableEq

def emptyPState : PState := ⟨none, [], []⟩

structure Decision where
  approved : List String
  regen : List String
deriving DecidableEq

def MAX_REGEN : Nat := 3

/-- Lines 179-183: mark each draft approved iff its channel is in this
round's approved list. -/
def markDrafts (app : List String) (ds : List DraftR) : List DraftR :=
  ds.map (fun d => { d with approved := app.contains d.channel })

def applyDecision (dec : Decision) (st : PState) : PState :=
  { st with drafts := markDrafts dec.approved st.drafts
            approved_channels := dec.approved }

/-- Lines 192-197: channels in the regen list get a freshly generated draft. -/
def regenDrafts (gen : String → PState → DraftR) (rg : List String)
    (st : PState) : List DraftR :=
  st.drafts.map (fun d => if rg.contains d.channel then gen d.channel st else d)

structure LoopResult where
  state : PState
  regen_round : Nat
  regens : Nat
  iters : Nat
  finished : Bool
  obs : List PState
deriving DecidableEq

def runLoop (score : PState → PState) (gen : String → PState → DraftR) :
    List Decision → Nat → PState → LoopResult
  | [], round, st => ⟨st, round, 0, 0, false, []⟩
  | dec :: rest, round, st =>
    let st2 := applyDecision dec (score st)
    if dec.regen.isEmpty then ⟨st2, round, 0, 1, true, [st2]⟩
    else if MAX_REGEN < round + 1 then ⟨st2, round + 1, 0, 1, true, [st2]⟩
    else
      let st3 := { st2 with drafts := regenDrafts gen dec.regen st2 }
      let r := runLoop score gen rest (round + 1) st3
      ⟨r.state, r.regen_round, r.regens + 1, r.iters + 1, r.finished, st2 :: r.obs⟩

/-! ## The campaign registry and event bus (src/app/api/state_manager.py)

Python dict semantics: assignment to an existing key replaces its value in
place, to a new key appends; both are `dictSet`.  `uuid.uuid4()` and
`datetime.utcnow()` are external inputs, passed in as `cid` / `now`.
`asyncio.create_task(_broadcast_event ...)` under the single cooperative
scheduler delivers each published event to every queue registered for the
campaign, in task-creation order; `broadcastEv` performs that delivery.
Queues are keyed by a fresh handle number (`nextQ`) standing for Python
object identity. -/

def dictSet {α : Type} (m : List (String × α)) (k : String) (v : α) :
    List (String × α) :=
  if m.any (fun p => p.1 == k) then
    m.map (fun p => if p.1 == k then (k, v) else p)
  else m ++ [(k, v)]

def dictGet {α : Type} (m : List (String × α)) (k : String) : Option α :=
  (m.find? (fun p => p.1 == k)).map (·.2)

structure Event where
  etype : String
  stage : String
  status : String
  message : String
  timestamp : Nat
deriving DecidableEq

structure StageEntry where
  status : String
  message : String
  timestamp : Option Nat
deriving DecidableEq

structure Campaign where
  id : String
  status : String
  current_stage : String
  input : List (String × String)
  state : PState
  created_at : Nat
  stages : List (String × StageEntry)
  error : Option String
deriving DecidableEq

structure SM where
  campaigns : List (String × Campaign)
  event_queues : List (String × List (Nat × List Event))
  nextQ : Nat
deriving DecidableEq

def emptySM : SM := ⟨[], [], 0⟩

def initialStages : List (String × StageEntry) :=
  [("ingestion", ⟨"pending", "", none⟩),
   ("persona", ⟨"pending", "", none⟩),
   ("drafting", ⟨"pending", "", none⟩),
   ("scoring", ⟨"pending", "", none⟩),
   ("approval", ⟨"pending", "", none⟩),
   ("execution", ⟨"pending", "", none⟩),
   ("persistence", ⟨"pending", "", none⟩)]

def create_campaign (sm : SM) (cid : String) (input : List (String × String))
    (now : Nat) : SM × String :=
  (⟨dictSet sm.campaigns cid
      ⟨cid, "created", "pending", input, emptyPState, now, initialStages, none⟩,
    dictSet sm.event_queues cid [],
    sm.nextQ⟩, cid)

def get_campaign (sm : SM) (cid : String) : Option Campaign :=
  dictGet sm.campaigns cid

def broadcastEv (qs : List (String × List (Nat × List Event))) (cid : String)
    (ev : Event) : List (String × List (Nat × List Event)) :=
  if qs.any (fun p => p.1 == cid) then
    qs.map (fun p => if p.1 == cid then (p.1, p.2.map (fun q => (q.1, q.2 ++ [ev]))) else p)
  else qs

def update_stage (sm : SM) (cid stage status message : String) (now : Nat) :
    SM × List Event :=
  match dictGet sm.campaigns cid with
  | none => (sm, [])
  | some c =>
    let ev : Event := ⟨"stage_update", stage, status, message, now⟩
    (⟨dictSet sm.campaigns cid
        { c with stages := dictSet c.stages stage ⟨status, message, some now⟩
                 current_stage := stage },
      broadcastEv sm.event_queues cid ev,
      sm.nextQ⟩, [ev])

def update_state (sm : SM) (cid : String) (st : PState) : SM :=
  match dictGet sm.campaigns cid with
  | none => sm
  | some c =>
    let c2 := { c with state := st, status := st.status.getD "running" }
    { sm with campaigns := dictSet sm.campaigns cid c2 }

def subscribe (sm : SM) (cid : String) : SM × Nat :=
  let qs := if sm.event_queues.any (fun p => p.1 == cid) then sm.event_queues
            else sm.event_queues ++ [(cid, [])]
  (⟨sm.campaigns,
    qs.map (fun p => if p.1 == cid then (p.1, p.2 ++ [(sm.nextQ, [])]) else p),
    sm.nextQ + 1⟩, sm.nextQ)

/-! Operation traces over the registry, for the per-campaign ordering claim. -/

inductive BusOp
  | sub (cid : String)
  | stg (cid stage status message : String) (now : Nat)

def busStep (sm : SM) : BusOp → SM
  | BusOp.sub cid => (subscribe sm cid).1
  | BusOp.stg cid stage status msg now => (update_stage sm cid stage status msg now).1

/-- The events one operation publishes for campaign `cid`. -/
def busPub (sm : SM) (op : BusOp) (cid : String) : List Event :=
  match op with
  | BusOp.sub _ => []
  | BusOp.stg c stage status msg now =>
    if c == cid then (update_stage sm c stage status msg now).2 else []

def runBus (sm : SM) : List BusOp → SM
  | [] => sm
  | op :: rest => runBus (busStep sm op) rest

/-- All events published for `cid` along the trace, in publish order. -/
def pubTrace (sm : SM) (ops : List BusOp) (cid : String) : List Event :=
  match ops with
  | [] => []
  | op :: rest => busPub sm op cid ++ pubTrace (busStep sm op) rest cid

def queuesOf (sm : SM) (cid : String) : List (Nat × List Event) :=
  (dictGet sm.event_queues cid).getD []

/-! ## The workflow driver (src/app/api/workflow_runner.py)

`graph.astream` yields a sequence of events, each a dict from finished node
name to that node's state; a worker that raises does so out of the `async
for`, modelled as `failure = some text` after the listed events.  The stage
updates the driver performs are also accumulated in `log`, in order.  The
source indexes `get_campaign(campaign_id)["current_stage"]` in its except
block, which presumes the id exists (driver runs always follow
`create_campaign`); the model reads it with a default. -/

def stage_map : List (String × String) :=
  [("ingestion", "ingestion"), ("persona", "persona"),
   ("draft_email", "drafting"), ("draft_sms", "drafting"),
   ("draft_linkedin", "drafting"), ("draft_instagram", "drafting"),
   ("scoring", "scoring"), ("approval", "approval"),
   ("execution", "execution"), ("persistence", "persistence")]

def stageOf (n : String) : String :=
  ((stage_map.find? (fun p => p.1 == n)).map (·.2)).getD n

structure DrvState where
  sm : SM
  clock : Nat
  drafting : Bool
  log : List Event
deriving DecidableEq

/-- One `state_manager.update_stage` call made by the driver, logged. -/
def drvStage (cid : String) (ds : DrvState) (stage status msg : String) : DrvState :=
  let r := update_stage ds.sm cid stage status msg ds.clock
  ⟨r.1, ds.clock + 1, ds.drafting, ds.log ++ r.2⟩

def procNodes (cid : String) (evKeys : List String) :
    List (String × PState) → DrvState → DrvState × Bool
  | [], ds => (ds, false)
  | (node, nst) :: rest, ds =>
    let stage := stageOf node
    let ds1 :=
      if stage == "drafting" then
        if ds.drafting then ds
        else { drvStage cid ds "drafting" "running"
                 "Generating personalized drafts for all channels..." with drafting := true }
      else
        { drvStage cid ds stage "running" ("Processing " ++ stage ++ "...") with
            drafting := false }
    let ds2 := { ds1 with sm := update_state ds1.sm cid nst }
    if node == "approval" && !nst.drafts.isEmpty then
      (drvStage cid ds2 "approval" "waiting" "Waiting for user approval...", true)
    else
      let ds3 :=
        if stage != "drafting" || evKeys.contains "draft_instagram" then
          drvStage cid ds2 stage "completed" (stage.capitalize ++ " completed")
        else ds2
      procNodes cid evKeys rest ds3

def procEvents (cid : String) :
    List (List (String × PState)) → DrvState → DrvState × Bool
  | [], ds => (ds, false)
  | ev :: rest, ds =>
    let r := procNodes cid (ev.map (·.1)) ev ds
    if r.2 then r else procEvents cid rest r.1

def run_campaign_workflow (cid : String) (events : List (List (String × PState)))
    (failure : Option String) (ds0 : DrvState) : DrvState :=
  let r := procEvents cid events ds0
  if r.2 then r.1
  else
    match failure with
    | some msg =>
      let cur := ((get_campaign r.1.sm cid).map (·.current_stage)).getD ""
      let ds2 := drvStage cid r.1 cur "failed" msg
      match get_campaign ds2.sm cid with
      | some c =>
        let c2 := { c with status := "failed", error := some msg }
        { ds2 with sm := { ds2.sm with campaigns := dictSet ds2.sm.campaigns cid c2 } }
      | none => ds2
    | none =>
      match get_campaign r.1.sm cid with
      | some c =>
        if c.state.status == some "persisted" then
          let ds2 := drvStage cid r.1 "persistence" "completed"
            "Campaign completed successfully"
          match get_campaign ds2.sm cid with
          | some c2 =>
            let c3 := { c2 with status := "completed" }
            { ds2 with sm := { ds2.sm with campaigns := dictSet ds2.sm.campaigns cid c3 } }
          | none => ds2
        else r.1
      | none => r.1

/-- A draft with its approval flag cleared; used to state that a step leaves
everything but the approval flag alone. -/
def stripApproved (d : DraftR) : DraftR := { d with approved := false }

/-! ## Concrete fixtures used by witnesses and counterexamples -/

def smW : SM := (create_campaign emptySM "c1" [] 0).1

def opsW : List BusOp :=
  [BusOp.sub "c1", BusOp.stg "c1" "ingestion" "running" "m" 1,
   BusOp.stg "c1" "ingestion" "completed" "m" 2]

def evW1 : Event := ⟨"stage_update", "ingestion", "running", "m", 1⟩

def evW2 : Event := ⟨"stage_update", "ingestion", "completed", "m", 2⟩

def dsW : DrvState := ⟨smW, 1, false, []⟩

def draftW : DraftR := ⟨"email", none, "b1", none, false, false⟩

def stW : PState := ⟨none, [draftW], []⟩

def genW : String → PState → DraftR := fun ch _ => ⟨ch, none, "regen", none, false, false⟩

/-- Two human decisions: round 1 approves email and asks to regenerate sms;
round 2 mentions no channel. -/
def decsW : List Decision := [⟨["email"], ["sms"]⟩, ⟨[], []⟩]

/-- One astream event carrying all four drafting workers at once, as a
parallel fan-out step of the graph delivers them. -/
def evCombined : List (List (String × PState)) :=
  [[("draft_email", emptyPState), ("draft_sms", emptyPState),
    ("draft_linkedin", emptyPState), ("draft_instagram", emptyPState)]]

/-- The canonical stream: each node's result in its own event, the drafting
workers in graph order with draft_instagram last. -/
def evCanonical (s1 s2 d1 d2 d3 d4 : PState) : List (List (String × PState)) :=
  [[("ingestion", s1)], [("persona", s2)], [("draft_email", d1)], [("draft_sms", d2)],
   [("draft_linkedin", d3)], [("draft_instagram", d4)]]

/-- The observable state after decsW's first round: email marked approved,
sms regenerated afterwards (recorded state is taken before regeneration). -/
def stObsW : PState := ⟨none, [⟨"email", none, "b1", none, true, false⟩], ["email"]⟩

/-- One stream event with the ingestion result, then the stream raises:
models the persona worker failing inside graph.astream. -/
def evIngestionOnly : List (List (String × PState)) := [[("ingestion", emptyPState)]]

/-- The campaign record after the driver has processed evIngestionOnly. -/
def cMidW : Campaign :=
  (get_campaign (procEvents "c1" evIngestionOnly dsW).1.sm "c1").getD
    ⟨"", "", "", [], emptyPState, 0, [], none⟩

/-! # Theorems

## List helpers -/

theorem takeWhile_append_all {α : Type} {p : α → Bool} {pre suf : List α}
    (h : ∀ c ∈ pre, p c = true) :
    (pre ++ suf).takeWhile p = pre ++ suf.takeWhile p := by
  induction pre with
  | nil => simp
  | cons a l ih =>
    rw [List.cons_append, List.takeWhile_cons, if_pos (h a (by simp)), List.cons_append]
    exact congrArg (a :: ·) (ih (fun c hc => h c (by simp [hc])))

theorem takeWhile_stop {α : Type} {p : α → Bool} {pre : List α} {c : α} {suf : List α}
    (h : ∀ x ∈ pre, p x = true) (hc : p c = false) :
    (pre ++ c :: suf).takeWhile p = pre := by
  rw [takeWhile_append_all h, List.takeWhile_cons, hc]
  simp

theorem getD_append_lt {α : Type} (a b : List α) (i : Nat) (d : α) (h : i < a.length) :
    (a ++ b).getD i d = a.getD i d := by
  simp [List.getD_eq_getElem?_getD, List.getElem?_append, h]

theorem getD_append_len {α : Type} (a : List α) (x : α) (b : List α) (d : α) :
    (a ++ x :: b).getD a.length d = x := by
  induction a with
  | nil => rfl
  | cons y ys ih => simpa using ih

theorem drop_append_len_cons {α : Type} (a : List α) (x : α) (b : List α) :
    (a ++ x :: b).drop (a.length + 1) = b := by
  rw [List.drop_append_eq_append_drop]
  simp

theorem max?_exists_of_mem {l : List Nat} {a : Nat} (h : a ∈ l) :
    ∃ m, l.max? = some m := by
  cases l with
  | nil => cases h
  | cons x xs => exact ⟨xs.foldl max x, rfl⟩

theorem mem_of_mem_drop_take {α : Type} {x : α} {u : List α} {i l : Nat}
    (h : x ∈ (u.drop i).take l) : x ∈ u :=
  List.mem_of_mem_drop (List.mem_of_mem_take h)

theorem digit_phoneMid {c : Char} (h : isDigitC c = true) : isPhoneMid c = true := by
  simp [isPhoneMid, h]

/-! ## Matcher completeness

Where the engine reports no match, no prefix of the text matches the
pattern; and a reported match is never empty. -/

theorem word_domain {c : Char} (h : isWordC c = true) : isDomainC c = true := by
  simp [isDomainC, h]

theorem phoneLenCore_of_shape (d : Char) (mid : List Char) (e : Char) (rest : List Char)
    (hd : isDigitC d = true) (hlen : 7 ≤ mid.length)
    (hmid : mid.all isPhoneMid = true) (he : isDigitC e = true) :
    ∃ n, phoneLenCore (d :: (mid ++ e :: rest)) = some n := by
  have hmid2 : ∀ c ∈ mid, isPhoneMid c = true := List.all_eq_true.mp hmid
  have hreq : (mid ++ e :: rest).takeWhile isPhoneMid
      = mid ++ e :: rest.takeWhile isPhoneMid := by
    rw [takeWhile_append_all hmid2, List.takeWhile_cons, if_pos (digit_phoneMid he)]
  set r := (mid ++ e :: rest).takeWhile isPhoneMid with hr
  have hlt : mid.length < r.length := by
    rw [hreq]; simp
  have hget : r.getD mid.length 'x' = e := by
    rw [hreq]; exact getD_append_len mid e (rest.takeWhile isPhoneMid) 'x'
  have hmem : mid.length ∈ (List.range r.length).filter
      (fun k => decide (7 ≤ k) && isDigitC (r.getD k 'x')) := by
    rw [List.mem_filter]
    refine ⟨List.mem_range.mpr hlt, ?_⟩
    show (decide (7 ≤ mid.length) && isDigitC (r.getD mid.length 'x')) = true
    rw [hget, he, Bool.and_true]
    exact decide_eq_true hlen
  obtain ⟨m, hm⟩ := max?_exists_of_mem hmem
  refine ⟨m + 2, ?_⟩
  simp only [phoneLenCore, hd, if_true, ← hr, hm]

theorem phoneLen_complete (t : List Char) (h : phoneLen t = none) :
    ∀ l, ¬ phoneMatch (t.take l) := by
  intro l hm
  obtain ⟨d, mid, e, hshape, hd, hlen, hmid, he⟩ := hm
  have hsplit : t = t.take l ++ t.drop l := (List.take_append_drop l t).symm
  rcases hshape with hs | hs
  · have ht : t = d :: (mid ++ e :: t.drop l) := by
      conv_lhs => rw [hsplit]
      rw [hs]; simp
    obtain ⟨n, hn⟩ := phoneLenCore_of_shape d mid e (t.drop l) hd hlen hmid he
    have hdp : d ≠ '+' := by
      intro hEq
      rw [hEq] at hd
      exact absurd hd (by decide)
    rw [ht] at h
    simp [phoneLen, hdp, hn] at h
  · have ht : t = '+' :: (d :: (mid ++ e :: t.drop l)) := by
      conv_lhs => rw [hsplit]
      rw [hs]; simp
    obtain ⟨n, hn⟩ := phoneLenCore_of_shape d mid e (t.drop l) hd hlen hmid he
    rw [ht] at h
    simp [phoneLen, hn] at h

theorem emailDomainLen_of_shape (dom tld u : List Char)
    (hdom : dom ≠ []) (hdomC : dom.all isDomainC = true)
    (htldlen : 2 ≤ tld.length) (htldC : tld.all isWordC = true) :
    ∃ n, emailDomainLen (dom ++ '.' :: (tld ++ u)) = some n := by
  have hdom2 : ∀ c ∈ dom, isDomainC c = true := List.all_eq_true.mp hdomC
  have htld2 : ∀ c ∈ tld, isWordC c = true := List.all_eq_true.mp htldC
  have htldD : ∀ c ∈ tld, isDomainC c = true := fun c hc => word_domain (htld2 c hc)
  have hreq : (dom ++ '.' :: (tld ++ u)).takeWhile isDomainC
      = dom ++ '.' :: (tld ++ u.takeWhile isDomainC) := by
    rw [takeWhile_append_all hdom2, List.takeWhile_cons, if_pos (by decide),
        takeWhile_append_all htldD]
  set r := (dom ++ '.' :: (tld ++ u)).takeWhile isDomainC with hr
  have hlt : dom.length < r.length := by
    rw [hreq]; simp
  have hget : r.getD dom.length 'x' = '.' := by
    rw [hreq]; exact getD_append_len dom '.' (tld ++ u.takeWhile isDomainC) 'x'
  have hdrop : (dom ++ '.' :: (tld ++ u)).drop (dom.length + 1) = tld ++ u :=
    drop_append_len_cons dom '.' (tld ++ u)
  have hwrun : 2 ≤ (((dom ++ '.' :: (tld ++ u)).drop (dom.length + 1)).takeWhile isWordC).length := by
    rw [hdrop, takeWhile_append_all htld2]
    simp
    omega
  have hmem : dom.length ∈ (List.range r.length).filter
      (fun j => decide (1 ≤ j) && decide (r.getD j 'x' = '.') &&
        decide (2 ≤ (((dom ++ '.' :: (tld ++ u)).drop (j+1)).takeWhile isWordC).length)) := by
    rw [List.mem_filter]
    refine ⟨List.mem_range.mpr hlt, ?_⟩
    show (decide (1 ≤ dom.length) && decide (r.getD dom.length 'x' = '.') &&
      decide (2 ≤ (((dom ++ '.' :: (tld ++ u)).drop (dom.length+1)).takeWhile isWordC).length)) = true
    have hp : 1 ≤ dom.length := by
      have := List.length_pos.mpr hdom
      omega
    rw [decide_eq_true hwrun, decide_eq_true hp, decide_eq_true hget,
        Bool.and_true, Bool.and_true]
  obtain ⟨m, hm⟩ := max?_exists_of_mem hmem
  refine ⟨m + 1 + (((dom ++ '.' :: (tld ++ u)).drop (m+1)).takeWhile isWordC).length, ?_⟩
  simp only [emailDomainLen, ← hr, hm]

theorem emailLen_of_shape (loc dom tld u : List Char)
    (hloc : loc ≠ []) (hlocC : loc.all isLocalC = true)
    (hdom : dom ≠ []) (hdomC : dom.all isDomainC = true)
    (htldlen : 2 ≤ tld.length) (htldC : tld.all isWordC = true) :
    ∃ n, emailLen (loc ++ '@' :: (dom ++ '.' :: (tld ++ u))) = some n := by
  have hloc2 : ∀ c ∈ loc, isLocalC c = true := List.all_eq_true.mp hlocC
  have htw : (loc ++ '@' :: (dom ++ '.' :: (tld ++ u))).takeWhile isLocalC = loc :=
    takeWhile_stop hloc2 (by decide)
  have hget : (loc ++ '@' :: (dom ++ '.' :: (tld ++ u))).getD loc.length 'x' = '@' :=
    getD_append_len loc '@' (dom ++ '.' :: (tld ++ u)) 'x'
  have hdrop : (loc ++ '@' :: (dom ++ '.' :: (tld ++ u))).drop (loc.length + 1)
      = dom ++ '.' :: (tld ++ u) :=
    drop_append_len_cons loc '@' (dom ++ '.' :: (tld ++ u))
  obtain ⟨m, hm⟩ := emailDomainLen_of_shape dom tld u hdom hdomC htldlen htldC
  refine ⟨loc.length + 1 + m, ?_⟩
  simp only [emailLen, htw, hget, hdrop, hm]
  simp [hloc]

theorem emailLen_complete (t : List Char) (h : emailLen t = none) :
    ∀ l, ¬ emailMatch (t.take l) := by
  intro l hm
  obtain ⟨loc, dom, tld, hs, hloc, hlocC, hdom, hdomC, htldlen, htldC⟩ := hm
  have hsplit : t = t.take l ++ t.drop l := (List.take_append_drop l t).symm
  have ht : t = loc ++ '@' :: (dom ++ '.' :: (tld ++ t.drop l)) := by
    conv_lhs => rw [hsplit]
    rw [hs]; simp
  obtain ⟨n, hn⟩ := emailLen_of_shape loc dom tld (t.drop l) hloc hlocC hdom hdomC htldlen htldC
  rw [ht, hn] at h
  cases h

theorem phoneLenCore_pos (t : List Char) (n : Nat) (h : phoneLenCore t = some n) :
    2 ≤ n := by
  cases t with
  | nil => cases h
  | cons c rest =>
    simp only [phoneLenCore] at h
    split at h
    · split at h
      · injection h with h2
        omega
      · cases h
    · cases h

theorem phoneLen_ne_some_zero (t : List Char) : phoneLen t ≠ some 0 := by
  intro h
  cases t with
  | nil => cases h
  | cons c rest =>
    simp only [phoneLen] at h
    split at h
    · rw [Option.map_eq_some'] at h
      obtain ⟨m, _, hm⟩ := h
      omega
    · have := phoneLenCore_pos (c :: rest) 0 h
      omega

theorem emailLen_ne_some_zero (t : List Char) : emailLen t ≠ some 0 := by
  intro h
  simp only [emailLen] at h
  split at h
  · cases h
  · split at h
    · rw [Option.map_eq_some'] at h
      obtain ⟨m, _, hm⟩ := h
      omega
    · cases h

/-! ## Substitution output structure -/

theorem subTextF_succ_no (M : List Char → Option Nat) (repl : List Char)
    (f : Nat) (c : Char) (rest : List Char)
    (h : M (c :: rest) = none ∨ M (c :: rest) = some 0) :
    subTextF M repl (f+1) (c :: rest) = c :: subTextF M repl f rest := by
  rcases h with h | h <;> simp only [subTextF, h]

theorem subTextF_succ_match (M : List Char → Option Nat) (repl : List Char)
    (f : Nat) (c : Char) (rest : List Char) (n : Nat)
    (h : M (c :: rest) = some (n+1)) :
    subTextF M repl (f+1) (c :: rest) = repl ++ subTextF M repl f (rest.drop n) := by
  simp only [subTextF, h]

/-- Any all-alphabet prefix of the substituted text is a prefix of the source
text: the replacement string opens with a character outside the alphabet, so
such a prefix cannot reach into a replacement. -/
theorem subTextF_take_eq_take (M : List Char → Option Nat) (repl : List Char)
    (A : Char → Bool) (hd : Char) (tl : List Char)
    (hrepl : repl = hd :: tl) (hhd : A hd = false) :
    ∀ f s l, s.length ≤ f →
      (∀ c ∈ (subTextF M repl f s).take l, A c = true) →
      ∃ k, (subTextF M repl f s).take l = s.take k := by
  intro f
  induction f with
  | zero =>
    intro s l hlen hA
    have hs : s = [] := List.length_eq_zero.mp (Nat.le_zero.mp hlen)
    subst hs
    exact ⟨0, by simp [subTextF]⟩
  | succ f ih =>
    intro s l hlen hA
    cases s with
    | nil => exact ⟨0, by simp [subTextF]⟩
    | cons c rest =>
      have hrl : rest.length ≤ f := by
        simp only [List.length_cons] at hlen
        omega
      rcases hM : M (c :: rest) with _ | ⟨_ | n⟩
      · rw [subTextF_succ_no M repl f c rest (Or.inl hM)] at hA ⊢
        cases l with
        | zero => exact ⟨0, by simp⟩
        | succ l =>
          rw [List.take_succ_cons] at hA ⊢
          obtain ⟨k, hk⟩ := ih rest l hrl (fun x hx => hA x (by simp [hx]))
          exact ⟨k + 1, by rw [hk, List.take_succ_cons]⟩
      · rw [subTextF_succ_no M repl f c rest (Or.inr hM)] at hA ⊢
        cases l with
        | zero => exact ⟨0, by simp⟩
        | succ l =>
          rw [List.take_succ_cons] at hA ⊢
          obtain ⟨k, hk⟩ := ih rest l hrl (fun x hx => hA x (by simp [hx]))
          exact ⟨k + 1, by rw [hk, List.take_succ_cons]⟩
      · rw [subTextF_succ_match M repl f c rest n hM] at hA ⊢
        cases l with
        | zero => exact ⟨0, by simp⟩
        | succ l =>
          exfalso
          have hmem : hd ∈ ((repl ++ subTextF M repl f (rest.drop n)).take (l+1)) := by
            rw [hrepl]
            simp [List.take_succ_cons]
          have := hA hd hmem
          rw [hhd] at this
          cases this

/-- Any all-alphabet contiguous piece of the substituted text occurs
contiguously in the source text or inside the replacement string: the
replacement's first and last characters are outside the alphabet, so a piece
cannot straddle a replacement boundary. -/
theorem subTextF_substr (M : List Char → Option Nat) (repl : List Char)
    (A : Char → Bool) (hd lc : Char) (tl : List Char)
    (hrepl : repl = hd :: tl) (hhd : A hd = false)
    (hlast : repl[repl.length - 1]? = some lc) (hlc : A lc = false) :
    ∀ f s i l, s.length ≤ f →
      (∀ c ∈ ((subTextF M repl f s).drop i).take l, A c = true) →
      SubstrOf s (((subTextF M repl f s).drop i).take l) ∨
      SubstrOf repl (((subTextF M repl f s).drop i).take l) := by
  intro f
  induction f with
  | zero =>
    intro s i l hlen hA
    have hs : s = [] := List.length_eq_zero.mp (Nat.le_zero.mp hlen)
    subst hs
    left
    exact ⟨0, 0, by simp [subTextF]⟩
  | succ f ih =>
    intro s i l hlen hA
    cases s with
    | nil =>
      left
      exact ⟨0, 0, by simp [subTextF]⟩
    | cons c rest =>
      have hrl : rest.length ≤ f := by
        simp only [List.length_cons] at hlen
        omega
      rcases hM : M (c :: rest) with _ | ⟨_ | n⟩
      · rw [subTextF_succ_no M repl f c rest (Or.inl hM)] at hA ⊢
        cases i with
        | succ i =>
          simp only [List.drop_succ_cons] at hA ⊢
          rcases ih rest i l hrl hA with ⟨i2, l2, h2⟩ | hr
          · exact Or.inl ⟨i2 + 1, l2, by rw [h2, List.drop_succ_cons]⟩
          · exact Or.inr hr
        | zero =>
          simp only [List.drop_zero] at hA ⊢
          cases l with
          | zero => exact Or.inl ⟨0, 0, by simp⟩
          | succ l =>
            rw [List.take_succ_cons] at hA ⊢
            obtain ⟨k, hk⟩ := subTextF_take_eq_take M repl A hd tl hrepl hhd f rest l hrl
              (fun x hx => hA x (by simp [hx]))
            refine Or.inl ⟨0, k + 1, ?_⟩
            rw [hk, List.drop_zero, List.take_succ_cons]
      · rw [subTextF_succ_no M repl f c rest (Or.inr hM)] at hA ⊢
        cases i with
        | succ i =>
          simp only [List.drop_succ_cons] at hA ⊢
          rcases ih rest i l hrl hA with ⟨i2, l2, h2⟩ | hr
          · exact Or.inl ⟨i2 + 1, l2, by rw [h2, List.drop_succ_cons]⟩
          · exact Or.inr hr
        | zero =>
          simp only [List.drop_zero] at hA ⊢
          cases l with
          | zero => exact Or.inl ⟨0, 0, by simp⟩
          | succ l =>
            rw [List.take_succ_cons] at hA ⊢
            obtain ⟨k, hk⟩ := subTextF_take_eq_take M repl A hd tl hrepl hhd f rest l hrl
              (fun x hx => hA x (by simp [hx]))
            refine Or.inl ⟨0, k + 1, ?_⟩
            rw [hk, List.drop_zero, List.take_succ_cons]
      · rw [subTextF_succ_match M repl f c rest n hM] at hA ⊢
        have hdl : (rest.drop n).length ≤ f := by
          have := List.length_drop n rest
          omega
        by_cases hi : repl.length ≤ i
        · have hdr : (repl ++ subTextF M repl f (rest.drop n)).drop i
              = (subTextF M repl f (rest.drop n)).drop (i - repl.length) := by
            rw [List.drop_append_eq_append_drop, List.drop_eq_nil_of_le hi, List.nil_append]
          rw [hdr] at hA ⊢
          rcases ih (rest.drop n) (i - repl.length) l hdl hA with ⟨i2, l2, h2⟩ | hr
          · refine Or.inl ⟨n + i2 + 1, l2, ?_⟩
            rw [h2, List.drop_drop, List.drop_succ_cons]
          · exact Or.inr hr
        · push_neg at hi
          by_cases hl : l ≤ repl.length - i
          · refine Or.inr ⟨i, l, ?_⟩
            rw [List.drop_append_eq_append_drop, List.take_append_eq_append_take]
            have h1 : (repl.drop i).length = repl.length - i := List.length_drop i repl
            have h2 : l - (repl.drop i).length = 0 := by omega
            rw [h2, List.take_zero, List.append_nil]
          · push_neg at hl
            exfalso
            have hidx : (((repl ++ subTextF M repl f (rest.drop n)).drop i).take l)[repl.length - 1 - i]?
                = some lc := by
              rw [List.getElem?_take, if_pos (by omega), List.getElem?_drop]
              rw [show i + (repl.length - 1 - i) = repl.length - 1 by omega]
              rw [List.getElem?_append, if_pos (by omega)]
              exact hlast
            have hmem := List.getElem?_mem hidx
            have := hA lc hmem
            rw [hlc] at this
            cases this

/-- After substituting a pattern's own matches, no contiguous piece of the
output matches the pattern: a piece inside a gap would contradict the
matcher's completeness at the position where the engine found nothing, a
piece inside the replacement is excluded by hypothesis, and a piece
straddling a replacement boundary contains an out-of-alphabet character. -/
theorem subTextF_no_match (M : List Char → Option Nat) (repl : List Char)
    (P : List Char → Prop) (A : Char → Bool) (hd lc : Char) (tl : List Char)
    (hrepl : repl = hd :: tl) (hhd : A hd = false)
    (hlast : repl[repl.length - 1]? = some lc) (hlc : A lc = false)
    (hM : ∀ t, M t = none → ∀ l, ¬ P (t.take l))
    (hM0 : ∀ t, M t ≠ some 0)
    (hA : ∀ l, P l → ∀ c ∈ l, A c = true)
    (hrp : ∀ i l, ¬ P ((repl.drop i).take l)) :
    ∀ f s, s.length ≤ f → NoMatchIn P (subTextF M repl f s) := by
  have hnil : ¬ P [] := by
    have := hrp 0 0
    simpa using this
  intro f
  induction f with
  | zero =>
    intro s hlen i l hP
    have hs : s = [] := List.length_eq_zero.mp (Nat.le_zero.mp hlen)
    subst hs
    simp [subTextF] at hP
    exact hnil hP
  | succ f ih =>
    intro s hlen i l hP
    cases s with
    | nil =>
      simp [subTextF] at hP
      exact hnil hP
    | cons c rest =>
      have hrl : rest.length ≤ f := by
        simp only [List.length_cons] at hlen
        omega
      rcases hMv : M (c :: rest) with _ | ⟨_ | n⟩
      · cases i with
        | succ i =>
          rw [subTextF_succ_no M repl f c rest (Or.inl hMv), List.drop_succ_cons] at hP
          exact ih rest hrl i l hP
        | zero =>
          rw [List.drop_zero] at hP
          obtain ⟨k, hk⟩ := subTextF_take_eq_take M repl A hd tl hrepl hhd (f+1)
            (c :: rest) l hlen (hA _ hP)
          rw [hk] at hP
          exact hM (c :: rest) hMv k hP
      · exact absurd hMv (hM0 (c :: rest))
      · rw [subTextF_succ_match M repl f c rest n hMv] at hP
        have hdl : (rest.drop n).length ≤ f := by
          have := List.length_drop n rest
          omega
        by_cases hi : repl.length ≤ i
        · rw [List.drop_append_eq_append_drop, List.drop_eq_nil_of_le hi,
            List.nil_append] at hP
          exact ih (rest.drop n) hdl (i - repl.length) l hP
        · push_neg at hi
          by_cases hl : l ≤ repl.length - i
          · refine hrp i l ?_
            rw [List.drop_append_eq_append_drop, List.take_append_eq_append_take] at hP
            have h1 : (repl.drop i).length = repl.length - i := List.length_drop i repl
            have h2 : l - (repl.drop i).length = 0 := by omega
            rw [h2, List.take_zero, List.append_nil] at hP
            exact hP
          · push_neg at hl
            have hidx : (((repl ++ subTextF M repl f (rest.drop n)).drop i).take l)[repl.length - 1 - i]?
                = some lc := by
              rw [List.getElem?_take, if_pos (by omega), List.getElem?_drop]
              rw [show i + (repl.length - 1 - i) = repl.length - 1 by omega]
              rw [List.getElem?_append, if_pos (by omega)]
              exact hlast
            have := hA _ hP lc (List.getElem?_mem hidx)
            rw [hlc] at this
            cases this

/-- Substituting one pattern's matches cannot create a match of another
pattern whose alphabet excludes the replacement's boundary characters. -/
theorem subTextF_preserve (M : List Char → Option Nat) (repl : List Char)
    (P : List Char → Prop) (A : Char → Bool) (hd lc : Char) (tl : List Char)
    (hrepl : repl = hd :: tl) (hhd : A hd = false)
    (hlast : repl[repl.length - 1]? = some lc) (hlc : A lc = false)
    (hA : ∀ l, P l → ∀ c ∈ l, A c = true)
    (hrp : ∀ i l, ¬ P ((repl.drop i).take l))
    (f : Nat) (s : List Char) (hlen : s.length ≤ f) (hs : NoMatchIn P s) :
    NoMatchIn P (subTextF M repl f s) := by
  intro i l hP
  rcases subTextF_substr M repl A hd lc tl hrepl hhd hlast hlc f s i l hlen (hA _ hP)
    with ⟨i2, l2, h2⟩ | ⟨i2, l2, h2⟩
  · exact hs i2 l2 (h2 ▸ hP)
  · exact hrp i2 l2 (h2 ▸ hP)

/-! ## Instantiation for the two patterns of sanitizer.py -/

theorem domain_local {c : Char} (h : isDomainC c = true) : isLocalC c = true := by
  simp only [isDomainC, Bool.or_eq_true] at h
  simp only [isLocalC, Bool.or_eq_true]
  tauto

theorem word_local {c : Char} (h : isWordC c = true) : isLocalC c = true :=
  domain_local (word_domain h)

theorem phoneMatch_chars (l : List Char) (h : phoneMatch l) :
    ∀ c ∈ l, isPhoneAl c = true := by
  obtain ⟨d, mid, e, hs, hd, _, hmid, he⟩ := h
  have hmid2 := List.all_eq_true.mp hmid
  have hdal : isPhoneAl d = true := by simp [isPhoneAl, digit_phoneMid hd]
  have heal : isPhoneAl e = true := by simp [isPhoneAl, digit_phoneMid he]
  have hcore : ∀ c ∈ d :: mid ++ [e], isPhoneAl c = true := by
    intro c hc
    rcases List.mem_cons.mp hc with rfl | hc2
    · exact hdal
    rcases List.mem_append.mp hc2 with hm | hm
    · simp [isPhoneAl, hmid2 c hm]
    · rw [List.mem_singleton.mp hm]
      exact heal
  intro c hc
  rcases hs with hs | hs
  · exact hcore c (hs ▸ hc)
  · rw [hs] at hc
    rcases List.mem_cons.mp hc with rfl | hc2
    · decide
    · exact hcore c hc2

theorem emailMatch_chars (l : List Char) (h : emailMatch l) :
    ∀ c ∈ l, isEmailAl c = true := by
  obtain ⟨loc, dom, tld, hs, _, hlocC, _, hdomC, _, htldC⟩ := h
  have hloc2 := List.all_eq_true.mp hlocC
  have hdom2 := List.all_eq_true.mp hdomC
  have htld2 := List.all_eq_true.mp htldC
  intro c hc
  rw [hs] at hc
  rcases List.mem_append.mp hc with hm | hm
  · simp [isEmailAl, hloc2 c hm]
  rcases List.mem_cons.mp hm with rfl | hm2
  · decide
  rcases List.mem_append.mp hm2 with hm3 | hm3
  · simp [isEmailAl, domain_local (hdom2 c hm3)]
  rcases List.mem_cons.mp hm3 with rfl | hm4
  · decide
  · simp [isEmailAl, word_local (htld2 c hm4)]

theorem phoneMatch_has_digit (l : List Char) (h : phoneMatch l) :
    ∃ c ∈ l, isDigitC c = true := by
  obtain ⟨d, mid, e, hs, hd, _, _, _⟩ := h
  refine ⟨d, ?_, hd⟩
  rcases hs with hs | hs <;> rw [hs] <;> simp

theorem emailMatch_has_at (l : List Char) (h : emailMatch l) : '@' ∈ l := by
  obtain ⟨loc, dom, tld, hs, _, _, _, _, _, _⟩ := h
  rw [hs]
  simp

theorem no_phone_within (u : List Char) (hu : ∀ c ∈ u, isDigitC c = false) :
    ∀ i l, ¬ phoneMatch ((u.drop i).take l) := by
  intro i l hP
  obtain ⟨c, hc, hdig⟩ := phoneMatch_has_digit _ hP
  have := hu c (mem_of_mem_drop_take hc)
  rw [hdig] at this
  cases this

theorem no_email_within (u : List Char) (hu : '@' ∉ u) :
    ∀ i l, ¬ emailMatch ((u.drop i).take l) := by
  intro i l hP
  exact hu (mem_of_mem_drop_take (emailMatch_has_at _ hP))

/-- No phone-regex match survives anywhere in `_scrub_text`'s output. -/
theorem scrub_text_no_phone (t : List Char) : NoMatchIn phoneMatch (scrub_text t) := by
  have step1 : NoMatchIn phoneMatch (subText phoneLen phoneRepl t) :=
    subTextF_no_match phoneLen phoneRepl phoneMatch isPhoneAl '[' ']'
      "REDACTED-PHONE]".toList (by decide) (by decide) (by decide) (by decide)
      phoneLen_complete phoneLen_ne_some_zero phoneMatch_chars
      (no_phone_within phoneRepl (by decide)) t.length t (Nat.le_refl _)
  exact subTextF_preserve emailLen emailRepl phoneMatch isPhoneAl '[' ']'
    "REDACTED-EMAIL]".toList (by decide) (by decide) (by decide) (by decide)
    phoneMatch_chars (no_phone_within emailRepl (by decide))
    (subText phoneLen phoneRepl t).length _ (Nat.le_refl _) step1

/-- No email-regex match survives anywhere in `_scrub_text`'s output. -/
theorem scrub_text_no_email (t : List Char) : NoMatchIn emailMatch (scrub_text t) :=
  subTextF_no_match emailLen emailRepl emailMatch isEmailAl '[' ']'
    "REDACTED-EMAIL]".toList (by decide) (by decide) (by decide) (by decide)
    emailLen_complete emailLen_ne_some_zero emailMatch_chars
    (no_email_within emailRepl (by decide))
    (subText phoneLen phoneRepl t).length _ (Nat.le_refl _)

theorem sanitizeLinks_sound (raw : List (String × LinkVal)) :
    ∀ kv ∈ sanitizeLinks raw,
      kv.1.toLower ∈ allowed_link_keys ∧ (kv.1, LinkVal.str kv.2) ∈ raw := by
  intro kv hkv
  rw [sanitizeLinks, List.mem_filterMap] at hkv
  obtain ⟨a, ha, hfa⟩ := hkv
  rcases hv : a.2 with v | _
  · rw [hv] at hfa
    simp only at hfa
    by_cases hcond : allowed_link_keys.contains a.1.toLower = true
    · rw [if_pos hcond] at hfa
      injection hfa with h2
      subst h2
      have haeq : a = (a.1, LinkVal.str v) := by
        cases a
        simp at hv ⊢
        exact hv
      exact ⟨by simpa using hcond, haeq ▸ ha⟩
    · rw [if_neg hcond] at hfa
      cases hfa
  · rw [hv] at hfa
    cases hfa

/-- C10: every key the sanitiser emits is in the whitelist; kept links have a
whitelisted lowercased key and a string value taken from the input; drafts
keep their count and channel order; and no phone- or email-regex match
survives in any draft body or subject. -/
theorem claim_C10_sanitize (p : SanPayload) :
    (∀ k ∈ (sanitize_for_storage p).map Prod.fst,
      k ∈ ["company", "role", "industry", "links", "tone_json", "interests",
           "recent_activity", "communication_style", "drafts"]) ∧
    ("links", SafeVal.linkMap (sanitizeLinks (p.links.getD []))) ∈ sanitize_for_storage p ∧
    (∀ kv ∈ sanitizeLinks (p.links.getD []),
      kv.1.toLower ∈ allowed_link_keys ∧ (kv.1, LinkVal.str kv.2) ∈ p.links.getD []) ∧
    ("drafts", SafeVal.draftList ((p.drafts.getD []).map sanitizeDraft)) ∈ sanitize_for_storage p ∧
    ((p.drafts.getD []).map sanitizeDraft).length = (p.drafts.getD []).length ∧
    (∀ i : Nat, (((p.drafts.getD []).map sanitizeDraft)[i]?).map OutDraft.channel
      = ((p.drafts.getD [])[i]?).map (fun d => d.channel.getD "unknown")) ∧
    (∀ d ∈ (p.drafts.getD []).map sanitizeDraft,
      NoMatchIn phoneMatch d.body ∧ NoMatchIn emailMatch d.body ∧
      ∀ s, d.subject = some s → NoMatchIn phoneMatch s ∧ NoMatchIn emailMatch s) := by
  refine ⟨?_, ?_, sanitizeLinks_sound _, ?_, by simp, ?_, ?_⟩
  · intro k hk
    simp only [sanitize_for_storage, List.map_append, List.mem_append] at hk
    rcases hk with ((((((((h | h) | h) | h) | h) | h) | h) | h) | h) <;>
      first
        | (rcases htj : p.tone_json with _ | ⟨_ | ⟨t, ts⟩⟩ <;> rw [htj] at h <;> simp_all)
        | (split at h <;> simp_all)
        | simp_all
  · simp [sanitize_for_storage]
  · simp [sanitize_for_storage]
  · intro i
    simp only [List.getElem?_map]
    cases (p.drafts.getD [])[i]? <;> simp [sanitizeDraft]
  · intro d hd
    rw [List.mem_map] at hd
    obtain ⟨d0, _, hd0⟩ := hd
    subst hd0
    refine ⟨scrub_text_no_phone _, scrub_text_no_email _, ?_⟩
    intro s hs
    simp only [sanitizeDraft] at hs
    split at hs
    · rcases hsub : d0.subject with _ | s0
      · rw [hsub] at hs
        cases hs
      · rw [hsub] at hs
        simp only [Option.map_some'] at hs
        injection hs with hs2
        subst hs2
        exact ⟨scrub_text_no_phone _, scrub_text_no_email _⟩
    · cases hs

/-! ## Dict lemmas for the registry -/

theorem find?_upd_self {α : Type} (m : List (String × α)) (k : String) (v : α)
    (hin : m.any (fun p => p.1 == k) = true) :
    (m.map (fun p => if p.1 == k then (k, v) else p)).find? (fun p => p.1 == k)
      = some (k, v) := by
  induction m with
  | nil => cases hin
  | cons p m ih =>
    by_cases hp : (p.1 == k) = true
    · rw [List.map_cons, if_pos hp, List.find?_cons_of_pos _ (by simp)]
    · have hp2 : (p.1 == k) = false := by simpa using hp
      have hin2 : m.any (fun q => q.1 == k) = true := by
        simpa [List.any_cons, hp2] using hin
      rw [List.map_cons, if_neg (by simp [hp2]), List.find?_cons_of_neg _ (by simp [hp2])]
      exact ih hin2

theorem find?_app_self {α : Type} (m : List (String × α)) (k : String) (v : α)
    (hnin : m.any (fun p => p.1 == k) = false) :
    (m ++ [(k, v)]).find? (fun p => p.1 == k) = some (k, v) := by
  induction m with
  | nil => rw [List.nil_append, List.find?_cons_of_pos _ (by simp)]
  | cons p m ih =>
    have hp : (p.1 == k) = false := by
      by_contra hc
      rw [Bool.not_eq_false] at hc
      simp [List.any_cons, hc] at hnin
    have hnin2 : m.any (fun q => q.1 == k) = false := by
      simpa [List.any_cons, hp] using hnin
    rw [List.cons_append, List.find?_cons_of_neg _ (by simp [hp])]
    exact ih hnin2

theorem find?_upd_other {α : Type} (m : List (String × α)) (k k2 : String) (v : α)
    (h : (k2 == k) = false) :
    (m.map (fun p => if p.1 == k then (k, v) else p)).find? (fun p => p.1 == k2)
      = m.find? (fun p => p.1 == k2) := by
  have hne : k2 ≠ k := beq_eq_false_iff_ne.mp h
  have hkk2 : (k == k2) = false := beq_eq_false_iff_ne.mpr (fun hc => hne hc.symm)
  induction m with
  | nil => simp
  | cons p m ih =>
    by_cases hp : (p.1 == k) = true
    · have hpk : p.1 = k := eq_of_beq hp
      have hp2 : (p.1 == k2) = false := by
        rw [hpk]
        exact hkk2
      rw [List.map_cons, if_pos hp, List.find?_cons_of_neg _ (by simp [hkk2]),
        List.find?_cons_of_neg _ (by simp [hp2])]
      exact ih
    · have hp2 : (p.1 == k) = false := by simpa using hp
      rw [List.map_cons, if_neg (by simp [hp2])]
      by_cases hq : (p.1 == k2) = true
      · rw [List.find?_cons_of_pos _ (by simp [hq]), List.find?_cons_of_pos _ (by simp [hq])]
      · have hq2 : (p.1 == k2) = false := by simpa using hq
        rw [List.find?_cons_of_neg _ (by simp [hq2]), List.find?_cons_of_neg _ (by simp [hq2])]
        exact ih

theorem find?_app_other {α : Type} (m : List (String × α)) (k k2 : String) (v : α)
    (h : (k2 == k) = false) :
    (m ++ [(k, v)]).find? (fun p => p.1 == k2) = m.find? (fun p => p.1 == k2) := by
  have hne : k2 ≠ k := beq_eq_false_iff_ne.mp h
  have hkk2 : (k == k2) = false := beq_eq_false_iff_ne.mpr (fun hc => hne hc.symm)
  induction m with
  | nil => rw [List.nil_append, List.find?_cons_of_neg _ (by simp [hkk2])]
  | cons p m ih =>
    by_cases hq : (p.1 == k2) = true
    · rw [List.cons_append, List.find?_cons_of_pos _ (by simp [hq]),
        List.find?_cons_of_pos _ (by simp [hq])]
    · have hq2 : (p.1 == k2) = false := by simpa using hq
      rw [List.cons_append, List.find?_cons_of_neg _ (by simp [hq2]),
        List.find?_cons_of_neg _ (by simp [hq2])]
      exact ih

theorem dictGet_dictSet_self {α : Type} (m : List (String × α)) (k : String) (v : α) :
    dictGet (dictSet m k v) k = some v := by
  unfold dictGet dictSet
  by_cases hin : m.any (fun p => p.1 == k) = true
  · rw [if_pos hin, find?_upd_self m k v hin]
    rfl
  · rw [if_neg hin, find?_app_self m k v (Bool.eq_false_iff.mpr hin)]
    rfl

theorem dictGet_dictSet_other {α : Type} (m : List (String × α)) (k k2 : String) (v : α)
    (h : (k2 == k) = false) :
    dictGet (dictSet m k v) k2 = dictGet m k2 := by
  unfold dictGet dictSet
  by_cases hin : m.any (fun p => p.1 == k) = true
  · rw [if_pos hin, find?_upd_other m k k2 v h]
  · rw [if_neg hin, find?_app_other m k k2 v h]

/-! ## Campaign registry claims -/

/-- C9: create_campaign returns the id under which it stores a fresh record
whose status is "created" and whose stage table holds every one of the seven
pipeline stages as "pending" (the id itself comes from uuid4, modelled as the
`cid` input). -/
theorem claim_C9_create (sm : SM) (cid : String) (input : List (String × String)) (now : Nat) :
    (create_campaign sm cid input now).2 = cid ∧
    get_campaign (create_campaign sm cid input now).1 cid
      = some ⟨cid, "created", "pending", input, emptyPState, now, initialStages, none⟩ ∧
    ∀ st ∈ ["ingestion", "persona", "drafting", "scoring", "approval", "execution",
        "persistence"], dictGet initialStages st = some ⟨"pending", "", none⟩ := by
  refine ⟨rfl, ?_, by decide⟩
  show dictGet (dictSet sm.campaigns cid _) cid = _
  exact dictGet_dictSet_self sm.campaigns cid _

/-- C3 counterexample: a freshly created campaign has status "created"; after
update_state with a snapshot that has no status field, its status is
"running", not the unchanged "created" the claim requires. -/
theorem claim_C3_counterexample :
    (get_campaign (create_campaign emptySM "c1" [] 0).1 "c1").map Campaign.status
      = some "created" ∧
    (get_campaign (update_state (create_campaign emptySM "c1" [] 0).1 "c1" emptyPState)
        "c1").map Campaign.status = some "running" := by
  decide

/-- C3 (amended): for a campaign present in the registry, update_state
replaces the stored snapshot wholesale and sets the campaign's status to the
snapshot's own status field when present, and to "running" when the snapshot
has no status field (it is not left unchanged). -/
theorem claim_C3_update_state (sm : SM) (cid : String) (snap : PState) (c : Campaign)
    (hc : get_campaign sm cid = some c) :
    get_campaign (update_state sm cid snap) cid
      = some { c with state := snap, status := snap.status.getD "running" } := by
  have hc2 : dictGet sm.campaigns cid = some c := hc
  unfold update_state
  rw [hc2]
  show dictGet (dictSet sm.campaigns cid
    { c with state := snap, status := snap.status.getD "running" }) cid = _
  exact dictGet_dictSet_self sm.campaigns cid _

theorem claim_C3_update_state_witness :
    get_campaign (create_campaign emptySM "c1" [] 0).1 "c1"
      = some ⟨"c1", "created", "pending", [], emptyPState, 0, initialStages, none⟩ ∧
    get_campaign (update_state (create_campaign emptySM "c1" [] 0).1 "c1" emptyPState) "c1"
      = some { (⟨"c1", "created", "pending", [], emptyPState, 0, initialStages,
          none⟩ : Campaign) with
          state := emptyPState, status := (emptyPState.status).getD "running" } :=
  ⟨by decide, claim_C3_update_state (create_campaign emptySM "c1" [] 0).1 "c1" emptyPState
    ⟨"c1", "created", "pending", [], emptyPState, 0, initialStages, none⟩ (by decide)⟩

/-! ## Event bus lemmas -/

theorem find?_keyed_self {β : Type} (qs : List (String × β)) (k : String) (g : β → β) :
    (qs.map (fun p => if p.1 == k then (p.1, g p.2) else p)).find? (fun p => p.1 == k)
      = (qs.find? (fun p => p.1 == k)).map (fun p => (p.1, g p.2)) := by
  induction qs with
  | nil => simp
  | cons p m ih =>
    by_cases hp : (p.1 == k) = true
    · rw [List.map_cons, if_pos hp, List.find?_cons_of_pos _ (by simp [hp]),
        List.find?_cons_of_pos _ (by simp [hp])]
      rfl
    · have hp2 : (p.1 == k) = false := by simpa using hp
      rw [List.map_cons, if_neg (by simp [hp2]), List.find?_cons_of_neg _ (by simp [hp2]),
        List.find?_cons_of_neg _ (by simp [hp2])]
      exact ih

theorem find?_keyed_other {β : Type} (qs : List (String × β)) (k k2 : String) (g : β → β)
    (h : (k2 == k) = false) :
    (qs.map (fun p => if p.1 == k then (p.1, g p.2) else p)).find? (fun p => p.1 == k2)
      = qs.find? (fun p => p.1 == k2) := by
  induction qs with
  | nil => simp
  | cons p m ih =>
    by_cases hp : (p.1 == k) = true
    · have hpk : p.1 = k := eq_of_beq hp
      have hp2 : (p.1 == k2) = false := by
        rw [hpk]
        exact beq_eq_false_iff_ne.mpr (fun hc => (beq_eq_false_iff_ne.mp h) hc.symm)
      rw [List.map_cons, if_pos hp, List.find?_cons_of_neg _ (by simp [hp2]),
        List.find?_cons_of_neg _ (by simp [hp2])]
      exact ih
    · have hp2 : (p.1 == k) = false := by simpa using hp
      rw [List.map_cons, if_neg (by simp [hp2])]
      by_cases hq : (p.1 == k2) = true
      · rw [List.find?_cons_of_pos _ (by simp [hq]), List.find?_cons_of_pos _ (by simp [hq])]
      · have hq2 : (p.1 == k2) = false := by simpa using hq
        rw [List.find?_cons_of_neg _ (by simp [hq2]), List.find?_cons_of_neg _ (by simp [hq2])]
        exact ih

theorem dictGet_none_of_any_false {α : Type} (m : List (String × α)) (k : String)
    (h : m.any (fun p => p.1 == k) = false) : dictGet m k = none := by
  unfold dictGet
  rw [List.find?_eq_none.mpr (List.any_eq_false.mp h)]
  rfl

theorem dictGet_broadcast_self (qs : List (String × List (Nat × List Event)))
    (cid : String) (ev : Event) :
    dictGet (broadcastEv qs cid ev) cid
      = (dictGet qs cid).map (fun ql => ql.map (fun q => (q.1, q.2 ++ [ev]))) := by
  unfold broadcastEv
  by_cases hin : qs.any (fun p => p.1 == cid) = true
  · rw [if_pos hin]
    unfold dictGet
    rw [find?_keyed_self qs cid (fun ql => ql.map (fun q => (q.1, q.2 ++ [ev])))]
    cases qs.find? (fun p => p.1 == cid) <;> rfl
  · have hf : qs.any (fun p => p.1 == cid) = false := Bool.eq_false_iff.mpr hin
    rw [if_neg hin, dictGet_none_of_any_false qs cid hf]
    rfl

theorem dictGet_broadcast_other (qs : List (String × List (Nat × List Event)))
    (cid cid2 : String) (ev : Event) (h : (cid2 == cid) = false) :
    dictGet (broadcastEv qs cid ev) cid2 = dictGet qs cid2 := by
  unfold broadcastEv
  by_cases hin : qs.any (fun p => p.1 == cid) = true
  · rw [if_pos hin]
    unfold dictGet
    rw [find?_keyed_other qs cid cid2 (fun ql => ql.map (fun q => (q.1, q.2 ++ [ev]))) h]
  · rw [if_neg hin]

/-- C7: update_stage on an unknown campaign id is a silent no-op — registry
unchanged, no event published; on a known id it rewrites exactly the named
stage entry (all other entries unchanged), sets current_stage, publishes
exactly one stage_update event, and that event is appended to every queue
subscribed to the campaign, other campaigns' records untouched. -/
theorem claim_C7_update_stage (sm : SM) (cid stage status msg : String) (now : Nat) :
    (get_campaign sm cid = none → update_stage sm cid stage status msg now = (sm, [])) ∧
    (∀ c, get_campaign sm cid = some c →
      (update_stage sm cid stage status msg now).2
          = [⟨"stage_update", stage, status, msg, now⟩] ∧
      get_campaign (update_stage sm cid stage status msg now).1 cid
          = some { c with stages := dictSet c.stages stage ⟨status, msg, some now⟩,
                          current_stage := stage } ∧
      dictGet (dictSet c.stages stage ⟨status, msg, some now⟩) stage
          = some ⟨status, msg, some now⟩ ∧
      (∀ st2, (st2 == stage) = false →
        dictGet (dictSet c.stages stage ⟨status, msg, some now⟩) st2
          = dictGet c.stages st2) ∧
      (∀ cid2, (cid2 == cid) = false →
        get_campaign (update_stage sm cid stage status msg now).1 cid2
          = get_campaign sm cid2) ∧
      queuesOf (update_stage sm cid stage status msg now).1 cid
          = (queuesOf sm cid).map
              (fun q => (q.1, q.2 ++ [⟨"stage_update", stage, status, msg, now⟩]))) := by
  constructor
  · intro h
    unfold update_stage
    rw [show dictGet sm.campaigns cid = none from h]
  · intro c hc
    have hc2 : dictGet sm.campaigns cid = some c := hc
    unfold update_stage
    rw [hc2]
    refine ⟨rfl, ?_, dictGet_dictSet_self c.stages stage _,
      fun st2 h2 => dictGet_dictSet_other c.stages stage st2 _ h2,
      fun cid2 h2 => ?_, ?_⟩
    · show dictGet (dictSet sm.campaigns cid _) cid = _
      exact dictGet_dictSet_self sm.campaigns cid _
    · show dictGet (dictSet sm.campaigns cid _) cid2 = dictGet sm.campaigns cid2
      exact dictGet_dictSet_other sm.campaigns cid cid2 _ h2
    · show (dictGet (broadcastEv sm.event_queues cid _) cid).getD []
        = ((dictGet sm.event_queues cid).getD []).map _
      rw [dictGet_broadcast_self]
      cases dictGet sm.event_queues cid <;> rfl

theorem beq_false_symm {a b : String} (h : (a == b) = false) : (b == a) = false :=
  beq_eq_false_iff_ne.mpr (fun hc => (beq_eq_false_iff_ne.mp h) hc.symm)

theorem queuesOf_subscribe_self (sm : SM) (cid : String) :
    queuesOf (subscribe sm cid).1 cid = queuesOf sm cid ++ [(sm.nextQ, [])] := by
  unfold subscribe queuesOf
  by_cases hin : sm.event_queues.any (fun p => p.1 == cid) = true
  · rw [if_pos hin]
    have h1 : (sm.event_queues.map
          (fun (p : String × List (Nat × List Event)) => if p.1 == cid then (p.1, p.2 ++ [(sm.nextQ, [])]) else p)).find?
            (fun (p : String × List (Nat × List Event)) => p.1 == cid)
        = (sm.event_queues.find? (fun (p : String × List (Nat × List Event)) => p.1 == cid)).map
            (fun (p : String × List (Nat × List Event)) => (p.1, p.2 ++ [(sm.nextQ, [])])) :=
      find?_keyed_self sm.event_queues cid (fun ql => ql ++ [(sm.nextQ, [])])
    unfold dictGet
    rw [h1]
    obtain ⟨x, hx⟩ := List.any_eq_true.mp hin
    have hfs : (sm.event_queues.find? (fun p => p.1 == cid)).isSome := by
      rw [List.find?_isSome]
      exact ⟨x, hx⟩
    obtain ⟨pe, hpe⟩ := Option.isSome_iff_exists.mp hfs
    rw [hpe]
    simp
  · have hf : sm.event_queues.any (fun p => p.1 == cid) = false := Bool.eq_false_iff.mpr hin
    rw [if_neg hin]
    have h1 : ((sm.event_queues ++ [(cid, [])]).map
          (fun (p : String × List (Nat × List Event)) => if p.1 == cid then (p.1, p.2 ++ [(sm.nextQ, [])]) else p)).find?
            (fun (p : String × List (Nat × List Event)) => p.1 == cid)
        = ((sm.event_queues ++ [(cid, [])]).find? (fun (p : String × List (Nat × List Event)) => p.1 == cid)).map
            (fun (p : String × List (Nat × List Event)) => (p.1, p.2 ++ [(sm.nextQ, [])])) :=
      find?_keyed_self (sm.event_queues ++ [(cid, [])]) cid (fun ql => ql ++ [(sm.nextQ, [])])
    unfold dictGet
    rw [h1, find?_app_self sm.event_queues cid [] hf,
      List.find?_eq_none.mpr (List.any_eq_false.mp hf)]
    simp

theorem queuesOf_subscribe_other (sm : SM) (cid cid2 : String) (h : (cid2 == cid) = false) :
    queuesOf (subscribe sm cid).1 cid2 = queuesOf sm cid2 := by
  unfold subscribe queuesOf
  by_cases hin : sm.event_queues.any (fun p => p.1 == cid) = true
  · rw [if_pos hin]
    unfold dictGet
    rw [find?_keyed_other sm.event_queues cid cid2 (fun ql => ql ++ [(sm.nextQ, [])]) h]
  · rw [if_neg hin]
    unfold dictGet
    rw [find?_keyed_other (sm.event_queues ++ [(cid, [])]) cid cid2
      (fun ql => ql ++ [(sm.nextQ, [])]) h]
    rw [find?_app_other sm.event_queues cid cid2 [] h]

theorem update_stage_none (sm : SM) (cid stage status msg : String) (now : Nat)
    (h : dictGet sm.campaigns cid = none) :
    update_stage sm cid stage status msg now = (sm, []) := by
  unfold update_stage
  rw [h]

theorem update_stage_queues_self (sm : SM) (cid stage status msg : String) (now : Nat)
    (c : Campaign) (h : dictGet sm.campaigns cid = some c) :
    queuesOf (update_stage sm cid stage status msg now).1 cid
      = (queuesOf sm cid).map
          (fun q => (q.1, q.2 ++ [⟨"stage_update", stage, status, msg, now⟩])) ∧
    (update_stage sm cid stage status msg now).2
      = [⟨"stage_update", stage, status, msg, now⟩] := by
  unfold update_stage
  rw [h]
  constructor
  · show (dictGet (broadcastEv sm.event_queues cid _) cid).getD [] = _
    rw [dictGet_broadcast_self]
    unfold queuesOf
    cases dictGet sm.event_queues cid <;> rfl
  · rfl

theorem update_stage_queues_other (sm : SM) (cid cid2 stage status msg : String) (now : Nat)
    (h : (cid2 == cid) = false) :
    queuesOf (update_stage sm cid stage status msg now).1 cid2 = queuesOf sm cid2 := by
  unfold update_stage
  rcases hc : dictGet sm.campaigns cid with _ | c
  · rfl
  · show (dictGet (broadcastEv sm.event_queues cid _) cid2).getD [] = _
    rw [dictGet_broadcast_other _ _ _ _ h]
    rfl

theorem suffix_append_one {α : Type} {l H : List α} (e : α) (h : l <:+ H) :
    l ++ [e] <:+ H ++ [e] := by
  obtain ⟨a, ha⟩ := h
  exact ⟨a, by rw [← ha, List.append_assoc]⟩

theorem busStep_suffix (cid : String) (sm : SM) (op : BusOp) (H : List Event)
    (hq : ∀ q ∈ queuesOf sm cid, q.2 <:+ H) :
    ∀ q ∈ queuesOf (busStep sm op) cid, q.2 <:+ H ++ busPub sm op cid := by
  cases op with
  | sub cid2 =>
    intro q hmem
    show q.2 <:+ H ++ []
    rw [List.append_nil]
    by_cases h2 : (cid2 == cid) = true
    · have he : cid2 = cid := eq_of_beq h2
      subst he
      rw [show busStep sm (BusOp.sub cid2) = (subscribe sm cid2).1 from rfl,
        queuesOf_subscribe_self] at hmem
      rcases List.mem_append.mp hmem with hm | hm
      · exact hq q hm
      · rw [List.mem_singleton.mp hm]
        exact List.nil_suffix
    · have h2f : (cid == cid2) = false := beq_false_symm (by simpa using h2)
      rw [show busStep sm (BusOp.sub cid2) = (subscribe sm cid2).1 from rfl,
        queuesOf_subscribe_other sm cid2 cid h2f] at hmem
      exact hq q hmem
  | stg cid2 stage status msg now =>
    by_cases h2 : (cid2 == cid) = true
    · have he : cid2 = cid := eq_of_beq h2
      subst he
      intro q hmem
      rw [show busStep sm (BusOp.stg cid2 stage status msg now)
          = (update_stage sm cid2 stage status msg now).1 from rfl] at hmem
      rcases hc : dictGet sm.campaigns cid2 with _ | c
      · rw [update_stage_none sm cid2 stage status msg now hc] at hmem
        have hpub : busPub sm (BusOp.stg cid2 stage status msg now) cid2 = [] := by
          show (if (cid2 == cid2) = true
            then (update_stage sm cid2 stage status msg now).2 else []) = []
          rw [if_pos (by simp), update_stage_none sm cid2 stage status msg now hc]
        rw [hpub, List.append_nil]
        exact hq q hmem
      · obtain ⟨hqs, hpub⟩ := update_stage_queues_self sm cid2 stage status msg now c hc
        rw [hqs] at hmem
        have hpub2 : busPub sm (BusOp.stg cid2 stage status msg now) cid2
            = [⟨"stage_update", stage, status, msg, now⟩] := by
          show (if (cid2 == cid2) = true
            then (update_stage sm cid2 stage status msg now).2 else [])
              = [⟨"stage_update", stage, status, msg, now⟩]
          rw [if_pos (by simp), hpub]
        rw [hpub2]
        rw [List.mem_map] at hmem
        obtain ⟨q0, hq0, hq0e⟩ := hmem
        subst hq0e
        exact suffix_append_one _ (hq q0 hq0)
    · have h2f : (cid2 == cid) = false := by simpa using h2
      intro q hmem
      rw [show busStep sm (BusOp.stg cid2 stage status msg now)
          = (update_stage sm cid2 stage status msg now).1 from rfl,
        update_stage_queues_other sm cid2 cid stage status msg now
          (beq_false_symm h2f)] at hmem
      have hpub : busPub sm (BusOp.stg cid2 stage status msg now) cid = [] := by
        show (if (cid2 == cid) = true
          then (update_stage sm cid2 stage status msg now).2 else []) = []
        rw [if_neg (by simp [h2f])]
      rw [hpub, List.append_nil]
      exact hq q hmem

theorem runBus_suffix (cid : String) :
    ∀ (ops : List BusOp) (sm : SM) (H : List Event),
      (∀ q ∈ queuesOf sm cid, q.2 <:+ H) →
      ∀ q ∈ queuesOf (runBus sm ops) cid, q.2 <:+ H ++ pubTrace sm ops cid := by
  intro ops
  induction ops with
  | nil =>
    intro sm H hq q hmem
    rw [show pubTrace sm [] cid = [] from rfl, List.append_nil]
    exact hq q hmem
  | cons op rest ih =>
    intro sm H hq q hmem
    have step := busStep_suffix cid sm op H hq
    have hrec := ih (busStep sm op) (H ++ busPub sm op cid) step q (by
      rw [show runBus sm (op :: rest) = runBus (busStep sm op) rest from rfl] at hmem
      exact hmem)
    rw [show pubTrace sm (op :: rest) cid
      = busPub sm op cid ++ pubTrace (busStep sm op) rest cid from rfl]
    rw [← List.append_assoc]
    exact hrec

/-- C8: for one campaign, after any trace of subscribe and stage-update
operations, every subscriber queue's content is a suffix of the sequence of
events published for that campaign along the trace — delivery order into each
queue equals publish order, a later subscriber merely starting later;
operations on other campaigns never enter that sequence. -/
theorem claim_C8_per_campaign_order (ops : List BusOp) (sm0 : SM) (cid : String)
    (h0 : queuesOf sm0 cid = []) :
    ∀ q ∈ queuesOf (runBus sm0 ops) cid, q.2 <:+ pubTrace sm0 ops cid := by
  intro q hmem
  have hres := runBus_suffix cid ops sm0 []
    (by rw [h0]; intro q hq; cases hq) q hmem
  simpa using hres

theorem claim_C8_witness :
    (0, [evW1, evW2]) ∈ queuesOf (runBus smW opsW) "c1" ∧
    (0, [evW1, evW2]).2 <:+ pubTrace smW opsW "c1" :=
  ⟨by decide, claim_C8_per_campaign_order opsW smW "c1" (by decide)
    (0, [evW1, evW2]) (by decide)⟩

/-! ## Approval / regeneration controller claims -/

theorem markDrafts_strip (app : List String) (ds : List DraftR) :
    (markDrafts app ds).map stripApproved = ds.map stripApproved := by
  unfold markDrafts
  rw [List.map_map]
  rfl

theorem markDrafts_approved (app : List String) (ds : List DraftR) :
    ∀ d ∈ markDrafts app ds, d.approved = app.contains d.channel := by
  intro d hd
  rw [markDrafts, List.mem_map] at hd
  obtain ⟨d0, _, hd0⟩ := hd
  subst hd0
  rfl

theorem runLoop_bound (score : PState → PState) (gen : String → PState → DraftR) :
    ∀ (decs : List Decision) (round : Nat) (st : PState), round ≤ MAX_REGEN →
      (runLoop score gen decs round st).regens + round ≤ MAX_REGEN ∧
      (runLoop score gen decs round st).iters + round ≤ MAX_REGEN + 1 := by
  have hm : MAX_REGEN = 3 := rfl
  intro decs
  induction decs with
  | nil =>
    intro round st h
    simp only [runLoop]
    omega
  | cons dec rest ih =>
    intro round st h
    rw [hm] at h
    simp only [runLoop]
    by_cases h1 : dec.regen.isEmpty = true
    · rw [if_pos h1]
      simp only [hm]
      omega
    · rw [if_neg h1]
      by_cases h2 : MAX_REGEN < round + 1
      · rw [if_pos h2]
        simp only [hm]
        omega
      · rw [if_neg h2]
        rw [hm] at h2
        obtain ⟨ha, hb⟩ := ih (round + 1)
          { status := (applyDecision dec (score st)).status,
            drafts := regenDrafts gen dec.regen (applyDecision dec (score st)),
            approved_channels := (applyDecision dec (score st)).approved_channels }
          (by omega)
        rw [hm] at ha hb
        simp only [hm]
        omega

/-- C1: for every terminating scoring and generation worker and every
sequence of decision payloads, the loop performs at most MAX_REGEN = 3
regeneration rounds and at most 4 iterations; and when a decision with a
non-empty regen list arrives after three regeneration rounds are already
spent, no regeneration is performed — every draft keeps its channel, subject,
body, score and sent flag, only that round's approval marking is applied —
and the loop exits to execution within that same iteration. -/
theorem claim_C1_regen_bound (score : PState → PState) (gen : String → PState → DraftR)
    (decs : List Decision) (st : PState) :
    (runLoop score gen decs 0 st).regens ≤ MAX_REGEN ∧
    (runLoop score gen decs 0 st).iters ≤ MAX_REGEN + 1 ∧
    (∀ (dec : Decision) (rest : List Decision) (st3 : PState), dec.regen ≠ [] →
      (runLoop score gen (dec :: rest) MAX_REGEN st3).finished = true ∧
      (runLoop score gen (dec :: rest) MAX_REGEN st3).iters = 1 ∧
      (runLoop score gen (dec :: rest) MAX_REGEN st3).regens = 0 ∧
      (runLoop score gen (dec :: rest) MAX_REGEN st3).state
        = applyDecision dec (score st3) ∧
      (runLoop score gen (dec :: rest) MAX_REGEN st3).state.drafts.map stripApproved
        = (score st3).drafts.map stripApproved ∧
      (∀ d ∈ (runLoop score gen (dec :: rest) MAX_REGEN st3).state.drafts,
        d.approved = dec.approved.contains d.channel)) := by
  obtain ⟨ha, hb⟩ := runLoop_bound score gen decs 0 st (by decide)
  refine ⟨by omega, by omega, ?_⟩
  intro dec rest st3 hne
  have h1 : dec.regen.isEmpty = false := by
    cases hl : dec.regen with
    | nil => exact absurd hl hne
    | cons a l => rfl
  have hres : runLoop score gen (dec :: rest) MAX_REGEN st3
      = ⟨applyDecision dec (score st3), MAX_REGEN + 1, 0, 1, true,
         [applyDecision dec (score st3)]⟩ := by
    simp only [runLoop, h1]
    rw [if_neg (by simp), if_pos (by omega)]
  rw [hres]
  refine ⟨rfl, rfl, rfl, rfl, ?_, ?_⟩
  · show (markDrafts dec.approved (score st3).drafts).map stripApproved = _
    exact markDrafts_strip dec.approved (score st3).drafts
  · show ∀ d ∈ markDrafts dec.approved (score st3).drafts, _
    exact markDrafts_approved dec.approved (score st3).drafts

theorem runLoop_obs (score : PState → PState) (gen : String → PState → DraftR) :
    ∀ (decs : List Decision) (round : Nat) (st : PState) (j : Nat) (dec : Decision)
      (stj : PState), decs[j]? = some dec →
      (runLoop score gen decs round st).obs[j]? = some stj →
      ∀ d ∈ stj.drafts, d.approved = dec.approved.contains d.channel := by
  intro decs
  induction decs with
  | nil =>
    intro round st j dec stj hd
    cases j <;> cases hd
  | cons dec0 rest ih =>
    intro round st j dec stj hd ho
    by_cases h1 : dec0.regen.isEmpty = true
    · rw [show (runLoop score gen (dec0 :: rest) round st).obs
          = [applyDecision dec0 (score st)] by simp only [runLoop, h1, if_true]] at ho
      cases j with
      | zero =>
        rw [List.getElem?_cons_zero] at hd ho
        injection hd with hd2
        injection ho with ho2
        subst hd2
        subst ho2
        exact markDrafts_approved dec0.approved (score st).drafts
      | succ j =>
        rw [show ([applyDecision dec0 (score st)] : List PState)[j+1]? = none from rfl] at ho
        cases ho
    · by_cases h2 : MAX_REGEN < round + 1
      · rw [show (runLoop score gen (dec0 :: rest) round st).obs
            = [applyDecision dec0 (score st)] by
          simp only [runLoop, h1, if_false]
          rw [if_neg (by simp [h1]), if_pos h2]] at ho
        cases j with
        | zero =>
          rw [List.getElem?_cons_zero] at hd ho
          injection hd with hd2
          injection ho with ho2
          subst hd2
          subst ho2
          exact markDrafts_approved dec0.approved (score st).drafts
        | succ j =>
          rw [show ([applyDecision dec0 (score st)] : List PState)[j+1]? = none from rfl] at ho
          cases ho
      · rw [show (runLoop score gen (dec0 :: rest) round st).obs
            = applyDecision dec0 (score st) ::
              (runLoop score gen rest (round + 1)
                { status := (applyDecision dec0 (score st)).status,
                  drafts := regenDrafts gen dec0.regen (applyDecision dec0 (score st)),
                  approved_channels := (applyDecision dec0 (score st)).approved_channels }).obs
            by
          simp only [runLoop]
          rw [if_neg (by simp [h1]), if_neg h2]] at ho
        cases j with
        | zero =>
          rw [List.getElem?_cons_zero] at hd ho
          injection hd with hd2
          injection ho with ho2
          subst hd2
          subst ho2
          exact markDrafts_approved dec0.approved (score st).drafts
        | succ j =>
          rw [List.getElem?_cons_succ] at hd ho
          exact ih (round + 1) _ j dec stj hd ho

/-- C2 counterexample: in one run with two approval rounds, the email draft's
approved flag is observed true after round 1 (approved there) and false in
the final state of the same run, because round 2's decision does not mention
email — approved is not monotonic within a run. -/
theorem claim_C2_counterexample :
    ((runLoop id genW decsW 0 stW).obs[0]?).map
        (fun s => s.drafts.map (fun d => (d.channel, d.approved)))
      = some [("email", true)] ∧
    (runLoop id genW decsW 0 stW).finished = true ∧
    (runLoop id genW decsW 0 stW).state.drafts.map (fun d => (d.channel, d.approved))
      = [("email", false)] := by
  decide

/-- C2 (amended): the approved flag is recomputed on every round rather than
kept monotonic — after the j-th decision of a run is applied, each draft's
approved flag equals exactly the membership of its channel in that decision's
approved list, so a draft approved earlier and not mentioned later holds
approved = false. -/
theorem claim_C2_approved_flags (score : PState → PState) (gen : String → PState → DraftR)
    (decs : List Decision) (st : PState) (j : Nat) (dec : Decision) (stj : PState)
    (hd : decs[j]? = some dec)
    (ho : (runLoop score gen decs 0 st).obs[j]? = some stj) :
    ∀ d ∈ stj.drafts, d.approved = dec.approved.contains d.channel :=
  runLoop_obs score gen decs 0 st j dec stj hd ho

theorem claim_C2_approved_flags_witness :
    decsW[0]? = some ⟨["email"], ["sms"]⟩ ∧
    (runLoop id genW decsW 0 stW).obs[0]? = some stObsW ∧
    ∀ d ∈ stObsW.drafts,
      d.approved = (Decision.approved ⟨["email"], ["sms"]⟩).contains d.channel :=
  ⟨by decide, by decide,
    claim_C2_approved_flags id genW decsW stW 0 ⟨["email"], ["sms"]⟩ stObsW
      (by decide) (by decide)⟩

/-- C6: a channel named in neither list of a decision payload is skipped in
that round: after the decision is applied its draft's approved flag is false,
the regeneration step leaves its draft entry untouched, it is not in
approved_channels, and when that decision ends the loop (empty regen list)
the state handed to execution still excludes it. -/
theorem claim_C6_skipped (score : PState → PState) (gen : String → PState → DraftR)
    (dec : Decision) (rest : List Decision) (round : Nat) (st : PState) (ch : String)
    (ha : dec.approved.contains ch = false) (hr : dec.regen.contains ch = false) :
    (∀ d ∈ (applyDecision dec (score st)).drafts, d.channel = ch → d.approved = false) ∧
    (∀ (i : Nat) (d : DraftR), (applyDecision dec (score st)).drafts[i]? = some d →
      d.channel = ch →
      (regenDrafts gen dec.regen (applyDecision dec (score st)))[i]? = some d) ∧
    (applyDecision dec (score st)).approved_channels.contains ch = false ∧
    (dec.regen = [] →
      (runLoop score gen (dec :: rest) round st).finished = true ∧
      (runLoop score gen (dec :: rest) round st).state.approved_channels.contains ch
        = false) := by
  refine ⟨?_, ?_, ha, ?_⟩
  · intro d hd hch
    rw [markDrafts_approved dec.approved (score st).drafts d hd, hch, ha]
  · intro i d hi hch
    unfold regenDrafts
    rw [List.getElem?_map, hi]
    simp only [Option.map_some']
    rw [hch, hr]
    rfl
  · intro hre
    have h1 : dec.regen.isEmpty = true := by rw [hre]; rfl
    rw [show runLoop score gen (dec :: rest) round st
        = ⟨applyDecision dec (score st), round, 0, 1, true, [applyDecision dec (score st)]⟩
      by simp only [runLoop, h1, if_true]]
    exact ⟨rfl, ha⟩

theorem claim_C6_skipped_witness :
    (Decision.approved ⟨["email"], ["sms"]⟩).contains "linkedin" = false ∧
    (Decision.regen ⟨["email"], ["sms"]⟩).contains "linkedin" = false ∧
    ((∀ d ∈ (applyDecision ⟨["email"], ["sms"]⟩ (id stW)).drafts,
        d.channel = "linkedin" → d.approved = false) ∧
      (∀ (i : Nat) (d : DraftR),
        (applyDecision ⟨["email"], ["sms"]⟩ (id stW)).drafts[i]? = some d →
        d.channel = "linkedin" →
        (regenDrafts genW (Decision.regen ⟨["email"], ["sms"]⟩)
          (applyDecision ⟨["email"], ["sms"]⟩ (id stW)))[i]? = some d) ∧
      (applyDecision ⟨["email"], ["sms"]⟩ (id stW)).approved_channels.contains "linkedin"
        = false ∧
      (Decision.regen ⟨["email"], ["sms"]⟩ = [] →
        (runLoop id genW (⟨["email"], ["sms"]⟩ :: []) 0 stW).finished = true ∧
        (runLoop id genW (⟨["email"], ["sms"]⟩ :: []) 0 stW).state.approved_channels.contains
          "linkedin" = false)) :=
  ⟨by decide, by decide,
    claim_C6_skipped id genW ⟨["email"], ["sms"]⟩ [] 0 stW "linkedin"
      (by decide) (by decide)⟩

/-! ## Workflow driver lemmas -/

theorem update_stage_pub (sm : SM) (cid stage status msg : String) (now : Nat) :
    (update_stage sm cid stage status msg now).2 = [] ∨
    (update_stage sm cid stage status msg now).2
      = [⟨"stage_update", stage, status, msg, now⟩] := by
  unfold update_stage
  rcases hc : dictGet sm.campaigns cid with _ | c
  · exact Or.inl rfl
  · exact Or.inr rfl

theorem filter_completed_append_running (l : List Event) (pub : List Event)
    (stage status msg : String) (now : Nat)
    (hpub : pub = [] ∨ pub = [⟨"stage_update", stage, status, msg, now⟩])
    (hs : (stage == "drafting" && status == "completed") = false) :
    (l ++ pub).filter (fun e => e.stage == "drafting" && e.status == "completed")
      = l.filter (fun e => e.stage == "drafting" && e.status == "completed") := by
  rcases hpub with h | h <;> rw [h]
  · rw [List.append_nil]
  · rw [List.filter_append]
    simp [hs]

theorem procNodes_one_drafting_no_insta (cid : String) (evKeys : List String)
    (node : String) (nst : PState) (ds : DrvState)
    (hst : stageOf node = "drafting") (hni : evKeys.contains "draft_instagram" = false) :
    (procNodes cid evKeys [(node, nst)] ds).1.log.filter
        (fun e => e.stage == "drafting" && e.status == "completed")
      = ds.log.filter (fun e => e.stage == "drafting" && e.status == "completed") := by
  have hna : (node == "approval") = false := by
    by_contra hc
    rw [Bool.not_eq_false] at hc
    rw [eq_of_beq hc] at hst
    exact absurd hst (by decide)
  simp only [procNodes, hst, hna, hni]
  by_cases hd : ds.drafting = true <;>
    simp only [hd, if_true, if_false, Bool.false_and, Bool.not_eq_true] <;>
    simp only [beq_self_eq_true, if_pos, if_true, bne_self_eq_false, Bool.false_or,
      if_false, drvStage]
  · rfl
  · exact filter_completed_append_running ds.log _ "drafting" "running"
      "Generating personalized drafts for all channels..." ds.clock
      (update_stage_pub ds.sm cid "drafting" "running" _ ds.clock) (by decide)

theorem update_stage_pub_some (sm : SM) (cid stage status msg : String) (now : Nat)
    (c : Campaign) (h : dictGet sm.campaigns cid = some c) :
    (update_stage sm cid stage status msg now).2
      = [⟨"stage_update", stage, status, msg, now⟩] := by
  unfold update_stage
  rw [h]

theorem update_state_campaigns_some (sm : SM) (cid : String) (st : PState) (c : Campaign)
    (h : dictGet sm.campaigns cid = some c) :
    dictGet (update_state sm cid st).campaigns cid
      = some { c with state := st, status := st.status.getD "running" } := by
  unfold update_state
  rw [h]
  exact dictGet_dictSet_self sm.campaigns cid _

theorem update_stage_campaigns_some (sm : SM) (cid stage status msg : String) (now : Nat)
    (c : Campaign) (h : dictGet sm.campaigns cid = some c) :
    dictGet (update_stage sm cid stage status msg now).1.campaigns cid
      = some { c with stages := dictSet c.stages stage ⟨status, msg, some now⟩,
                      current_stage := stage } := by
  unfold update_stage
  rw [h]
  exact dictGet_dictSet_self sm.campaigns cid _

theorem procNodes_one_drafting_insta (cid : String) (evKeys : List String)
    (node : String) (nst : PState) (ds : DrvState) (c : Campaign)
    (hst : stageOf node = "drafting") (hyi : evKeys.contains "draft_instagram" = true)
    (hc : dictGet ds.sm.campaigns cid = some c) :
    (procNodes cid evKeys [(node, nst)] ds).1.log.filter
        (fun e => e.stage == "drafting" && e.status == "completed")
      = ds.log.filter (fun e => e.stage == "drafting" && e.status == "completed")
        ++ [⟨"stage_update", "drafting", "completed", "Drafting completed",
             if ds.drafting then ds.clock else ds.clock + 1⟩] := by
  have hna : (node == "approval") = false := by
    by_contra hcon
    rw [Bool.not_eq_false] at hcon
    rw [eq_of_beq hcon] at hst
    exact absurd hst (by decide)
  have hmsg : "drafting".capitalize ++ " completed" = "Drafting completed" := by decide
  simp only [procNodes, hst, hna, hyi]
  by_cases hd : ds.drafting = true
  · simp only [hd, if_true, Bool.false_and, Bool.false_eq_true, if_false,
      beq_self_eq_true, bne_self_eq_false, Bool.false_or, Bool.true_or, Bool.or_true,
      drvStage, hmsg]
    have hc2 := update_state_campaigns_some ds.sm cid nst c hc
    rw [update_stage_pub_some _ cid "drafting" "completed" "Drafting completed" ds.clock _ hc2]
    simp [List.filter_append]
  · have hd2 : ds.drafting = false := Bool.eq_false_iff.mpr hd
    simp only [hd2, Bool.false_eq_true, if_false, if_true, Bool.false_and,
      beq_self_eq_true, bne_self_eq_false, Bool.false_or, Bool.true_or, Bool.or_true,
      drvStage, hmsg]
    have hc1 := update_stage_campaigns_some ds.sm cid "drafting" "running"
      "Generating personalized drafts for all channels..." ds.clock c hc
    have hc2 := update_state_campaigns_some _ cid nst _ hc1
    rw [update_stage_pub_some _ cid "drafting" "completed" "Drafting completed"
      (ds.clock + 1) _ hc2]
    rcases update_stage_pub ds.sm cid "drafting" "running"
        "Generating personalized drafts for all channels..." ds.clock with hp | hp <;>
      rw [hp] <;> simp [List.filter_append]

/-- C4 (amended): the driver's completion test for the combined drafting
stage is the hardcoded node name draft_instagram in the current astream
event, not channel-set membership.  Consequences, each proved: on the
canonical stream (each worker's result in its own event, draft_instagram
last) exactly one "drafting" running update and exactly one "drafting"
completed update are emitted, the completed one while processing the last
worker; processing a drafting result whose event lacks draft_instagram never
emits a completed update; processing a drafting result whose event contains
draft_instagram always emits one. -/
theorem claim_C4_drafting_updates :
    ((run_campaign_workflow "c1" (evCanonical emptyPState emptyPState emptyPState
        emptyPState emptyPState emptyPState) none dsW).log.filter
        (fun e => e.stage == "drafting")
      = [⟨"stage_update", "drafting", "running",
          "Generating personalized drafts for all channels...", 5⟩,
         ⟨"stage_update", "drafting", "completed", "Drafting completed", 6⟩]) ∧
    (∀ (cid : String) (evKeys : List String) (node : String) (nst : PState) (ds : DrvState),
      stageOf node = "drafting" → evKeys.contains "draft_instagram" = false →
      (procNodes cid evKeys [(node, nst)] ds).1.log.filter
          (fun e => e.stage == "drafting" && e.status == "completed")
        = ds.log.filter (fun e => e.stage == "drafting" && e.status == "completed")) ∧
    (∀ (cid : String) (evKeys : List String) (node : String) (nst : PState)
        (ds : DrvState) (c : Campaign),
      stageOf node = "drafting" → evKeys.contains "draft_instagram" = true →
      dictGet ds.sm.campaigns cid = some c →
      (procNodes cid evKeys [(node, nst)] ds).1.log.filter
          (fun e => e.stage == "drafting" && e.status == "completed")
        = ds.log.filter (fun e => e.stage == "drafting" && e.status == "completed")
          ++ [⟨"stage_update", "drafting", "completed", "Drafting completed",
               if ds.drafting then ds.clock else ds.clock + 1⟩]) :=
  ⟨by decide, procNodes_one_drafting_no_insta, procNodes_one_drafting_insta⟩

/-- C5 counterexample: the ingestion worker succeeds, then the persona worker
raises inside the stream.  The campaign is marked failed with the error
stored, but the failing stage's entry is NOT marked failed: persona stays
"pending", while the already-completed ingestion entry (the lagging
current_stage) is overwritten to "failed". -/
theorem claim_C5_counterexample :
    (get_campaign (run_campaign_workflow "c1" evIngestionOnly (some "persona boom") dsW).sm
        "c1").map Campaign.status = some "failed" ∧
    (get_campaign (run_campaign_workflow "c1" evIngestionOnly (some "persona boom") dsW).sm
        "c1").map Campaign.error = some (some "persona boom") ∧
    ((get_campaign (run_campaign_workflow "c1" evIngestionOnly (some "persona boom") dsW).sm
        "c1").map (fun c => dictGet c.stages "persona"))
      = some (some ⟨"pending", "", none⟩) ∧
    ((get_campaign (run_campaign_workflow "c1" evIngestionOnly (some "persona boom") dsW).sm
        "c1").map (fun c => dictGet c.stages "ingestion"))
      = some (some ⟨"failed", "persona boom", some 3⟩) := by
  decide

/-- C5 (amended): when the stream raises after some events (no approval
interrupt reached), the driver emits exactly one further stage update —
status "failed" with the worker's error text, at the stage recorded as
current_stage (the most recently processed stage, or the initial "pending"
placeholder) — and nothing after it, so no stage is subsequently marked
running; the campaign's status becomes "failed" and its error field holds the
worker's error text.  The stage whose worker actually failed keeps its prior
entry. -/
theorem claim_C5_failure (cid : String) (events : List (List (String × PState)))
    (msg : String) (ds0 : DrvState) (c : Campaign)
    (hni : (procEvents cid events ds0).2 = false)
    (hc : get_campaign (procEvents cid events ds0).1.sm cid = some c) :
    (run_campaign_workflow cid events (some msg) ds0).log
      = (procEvents cid events ds0).1.log
        ++ [⟨"stage_update", c.current_stage, "failed", msg,
             (procEvents cid events ds0).1.clock⟩] ∧
    get_campaign (run_campaign_workflow cid events (some msg) ds0).sm cid
      = some { c with
          stages := dictSet c.stages c.current_stage
            ⟨"failed", msg, some (procEvents cid events ds0).1.clock⟩,
          current_stage := c.current_stage,
          status := "failed", error := some msg } := by
  have hc2 : dictGet (procEvents cid events ds0).1.sm.campaigns cid = some c := hc
  have hc3 := update_stage_campaigns_some (procEvents cid events ds0).1.sm cid
    c.current_stage "failed" msg (procEvents cid events ds0).1.clock c hc2
  simp only [run_campaign_workflow, hni, Bool.false_eq_true, if_false, hc,
    Option.map_some', Option.getD_some, drvStage,
    update_stage_pub_some _ cid c.current_stage "failed" msg
      (procEvents cid events ds0).1.clock c hc2]
  rw [show get_campaign (update_stage (procEvents cid events ds0).1.sm cid
      c.current_stage "failed" msg (procEvents cid events ds0).1.clock).1 cid
    = some { c with
        stages := dictSet c.stages c.current_stage
          ⟨"failed", msg, some (procEvents cid events ds0).1.clock⟩,
        current_stage := c.current_stage } from hc3]
  refine ⟨rfl, ?_⟩
  show dictGet (dictSet _ cid _) cid = _
  exact dictGet_dictSet_self _ cid _

theorem claim_C5_failure_witness :
    (procEvents "c1" evIngestionOnly dsW).2 = false ∧
    get_campaign (procEvents "c1" evIngestionOnly dsW).1.sm "c1" = some cMidW ∧
    ((run_campaign_workflow "c1" evIngestionOnly (some "persona boom") dsW).log
      = (procEvents "c1" evIngestionOnly dsW).1.log
        ++ [⟨"stage_update", cMidW.current_stage, "failed", "persona boom",
             (procEvents "c1" evIngestionOnly dsW).1.clock⟩] ∧
    get_campaign (run_campaign_workflow "c1" evIngestionOnly (some "persona boom") dsW).sm "c1"
      = some { cMidW with
          stages := dictSet cMidW.stages cMidW.current_stage
            ⟨"failed", "persona boom", some (procEvents "c1" evIngestionOnly dsW).1.clock⟩,
          current_stage := cMidW.current_stage,
          status := "failed", error := some "persona boom" }) :=
  ⟨by decide, by decide,
    claim_C5_failure "c1" evIngestionOnly "persona boom" dsW cMidW (by decide) (by decide)⟩

/-- C4 counterexample: when the four drafting workers arrive in one astream
event (a parallel fan-out step), the driver emits the combined "drafting"
completed update four times, not exactly once — the completion test
`"draft_instagram" in event` holds for every drafting node of that event. -/
theorem claim_C4_counterexample :
    ((run_campaign_workflow "c1" evCombined none dsW).log.filter
        (fun e => e.stage == "drafting" && e.status == "completed")).length = 4 ∧
    ((run_campaign_workflow "c1" evCombined none dsW).log.filter
        (fun e => e.stage == "drafting" && e.status == "running")).length = 1 := by
  decide
